import Mathlib

/-!
Verification of the miniserde JSON engine (src/json/de.rs, src/json/ser.rs,
src/json/value.rs) against its natural-language specification.

The Rust sources are shallowly embedded: bytes are `Nat` (values < 256),
byte buffers are `List Nat`, the deserializer's cursor is represented by the
remaining-input suffix (the source's `pos` index into `input` corresponds to
dropping the consumed prefix), machine integers are `Nat`/`Int` with explicit
bounds, and IEEE-754 binary64 floats are modelled exactly by the `Float64`
type below together with executable round-to-nearest-even rounding.
-/

deriving instance DecidableEq for Except

namespace Miniserde

/-! ### Byte helpers -/

/-- Whitespace bytes: space, LF, CR, TAB (see `CharClass::Whitespace`). -/
def isWsByte (b : Nat) : Bool := b == 32 || b == 10 || b == 13 || b == 9

/-- ASCII digit bytes `'0'..='9'`. -/
def isDigitByte (b : Nat) : Bool := 48 ≤ b && b ≤ 57

/-- Character classes from the 256-entry `CLASSIFY` table in de.rs. -/
inductive CharClass where
  | whitespace
  | control
  | digit
  | quote
  | leftBrace
  | rightBrace
  | leftBracket
  | rightBracket
  | comma
  | colon
  | minus
  | ident
  | err
deriving DecidableEq

/-- The `CLASSIFY` table of de.rs as a function on byte values. -/
def classify (b : Nat) : CharClass :=
  if b == 32 || b == 10 || b == 13 || b == 9 then .whitespace
  else if b ≤ 0x1F then .control
  else if 48 ≤ b && b ≤ 57 then .digit
  else if b == 34 then .quote
  else if b == 123 then .leftBrace
  else if b == 125 then .rightBrace
  else if b == 91 then .leftBracket
  else if b == 93 then .rightBracket
  else if b == 44 then .comma
  else if b == 58 then .colon
  else if b == 45 then .minus
  else if b == 116 || b == 102 || b == 110 then .ident
  else .err

/-- `skip_whitespace_and_peek_class`: advance the cursor past whitespace.
The returned list is the remaining input; its head (if any) is the peeked
byte, which the source pairs with its `CLASSIFY` class. -/
def skipWs : List Nat → List Nat
  | [] => []
  | b :: t => if isWsByte b then skipWs t else b :: t

theorem skipWs_nil : skipWs [] = [] := rfl

theorem skipWs_not_ws (b : Nat) (t : List Nat) (h : isWsByte b = false) :
    skipWs (b :: t) = b :: t := by
  simp [skipWs, h]

theorem skipWs_all_ws : ∀ l : List Nat, (∀ b ∈ l, isWsByte b = true) → skipWs l = []
  | [], _ => rfl
  | b :: t, h => by
    simp only [skipWs, h b (by simp)]
    exact skipWs_all_ws t (fun x hx => h x (by simp [hx]))

theorem skipWs_length_le : ∀ l : List Nat, (skipWs l).length ≤ l.length
  | [] => by simp [skipWs]
  | b :: t => by
    by_cases h : isWsByte b
    · simpa [skipWs, h] using Nat.le_succ_of_le (skipWs_length_le t)
    · simp [skipWs, h]

/-! ### Exact model of IEEE-754 binary64 (Rust `f64`)

A finite double is `(-1)^sign * m * 2^e` in canonical form: either `m = 0`
(a signed zero, stored with `e = -1074`), a subnormal (`0 < m < 2^52`,
`e = -1074`), or a normal (`2^52 ≤ m < 2^53`, `-1074 ≤ e ≤ 971`).  All
arithmetic is performed exactly on rationals represented as `Nat` fractions
and rounded to nearest, ties to even — exactly the semantics of Rust's `f64`
operations in the default rounding mode. -/

inductive Float64 where
  | finite (sign : Bool) (m : Nat) (e : Int)
  | inf (sign : Bool)
  | nan
deriving DecidableEq

/-- One step of the binary-decomposition logarithm: divide out `2^k` when
possible, accumulating `k` into the exponent. -/
def log2Step (acc : Nat × Nat) (k : Nat) : Nat × Nat :=
  if 2 ^ k ≤ acc.1 then (acc.1 / 2 ^ k, acc.2 + k) else acc

/-- Floor of the base-2 logarithm (`Nat.log2`) by binary decomposition of
the exponent, so evaluation depth stays constant.  Exact for every
`n < 2^8192`; every rational the embedded float arithmetic rounds has a
scaled numerator far below that bound (at most about `2^3700`). -/
def natLog2 (n : Nat) : Nat :=
  (List.foldl log2Step (n, 0)
    [4096, 2048, 1024, 512, 256, 128, 64, 32, 16, 8, 4, 2, 1]).2

/-- Round `p / q` (with `q > 0`) to the nearest integer, ties to even. -/
def nearestEvenDiv (p q : Nat) : Nat :=
  let d := p / q
  let r := p % q
  if 2 * r < q then d
  else if q < 2 * r then d + 1
  else if d % 2 = 0 then d else d + 1

/-- Round the positive rational `num / den` (with `den > 0`) to binary64,
nearest-even, attaching `sign`; overflow gives an infinity. -/
def roundFrac (sign : Bool) (num den : Nat) : Float64 :=
  if num = 0 then .finite sign 0 (-1074)
  else
    let scaled := num * 2 ^ 1074
    let n0 := scaled / den
    if n0 < 2 ^ 53 then
      let n := nearestEvenDiv scaled den
      if n = 2 ^ 53 then .finite sign (2 ^ 52) (-1073) else .finite sign n (-1074)
    else
      let s := natLog2 n0 - 52
      let n := nearestEvenDiv scaled (den * 2 ^ s)
      if n = 2 ^ 53 then
        if (971 : Int) < -1074 + (s : Int) + 1 then .inf sign
        else .finite sign (2 ^ 52) (-1074 + (s : Int) + 1)
      else
        if (971 : Int) < -1074 + (s : Int) then .inf sign
        else .finite sign n (-1074 + (s : Int))

/-- Round `(-1)^sign * p * 2^e` to binary64. -/
def roundScaled (sign : Bool) (p : Nat) (e : Int) : Float64 :=
  if 0 ≤ e then roundFrac sign (p * 2 ^ e.toNat) 1
  else roundFrac sign p (2 ^ (-e).toNat)

namespace Float64

/-- Rust `u64 as f64` (round to nearest even). -/
def ofNat (n : Nat) : Float64 := roundFrac false n 1

def isFinite : Float64 → Bool
  | .finite _ _ _ => true
  | _ => false

def isInfinite : Float64 → Bool
  | .inf _ => true
  | _ => false

/-- Value comparison with `0.0` (true for both signed zeros, as in Rust). -/
def isZero : Float64 → Bool
  | .finite _ 0 _ => true
  | _ => false

def neg : Float64 → Float64
  | .finite s m e => .finite (!s) m e
  | .inf s => .inf (!s)
  | .nan => .nan

/-- Rust `f64` multiplication (exact product, then round to nearest even). -/
def mul : Float64 → Float64 → Float64
  | .finite s1 m1 e1, .finite s2 m2 e2 =>
    if m1 = 0 || m2 = 0 then .finite (xor s1 s2) 0 (-1074)
    else roundScaled (xor s1 s2) (m1 * m2) (e1 + e2)
  | .finite _ m1 _, .inf s2 => if m1 = 0 then .nan else .inf s2
  | .inf s1, .finite _ m2 _ => if m2 = 0 then .nan else .inf s1
  | .inf s1, .inf s2 => .inf (xor s1 s2)
  | _, _ => .nan

/-- Rust `f64` division (exact quotient, then round to nearest even). -/
def div : Float64 → Float64 → Float64
  | .finite s1 m1 e1, .finite s2 m2 e2 =>
    if m2 = 0 then (if m1 = 0 then .nan else .inf (xor s1 s2))
    else if m1 = 0 then .finite (xor s1 s2) 0 (-1074)
    else
      let d := e1 - e2
      if 0 ≤ d then roundFrac (xor s1 s2) (m1 * 2 ^ d.toNat) m2
      else roundFrac (xor s1 s2) m1 (m2 * 2 ^ (-d).toNat)
  | .finite s1 _ _, .inf s2 => .finite (xor s1 s2) 0 (-1074)
  | .inf s1, .finite s2 _ _ => .inf (xor s1 s2)
  | .inf _, .inf _ => .nan
  | _, _ => .nan

/-- The float `0.0`. -/
def posZero : Float64 := .finite false 0 (-1074)

/-- The float `-0.0`. -/
def negZero : Float64 := .finite true 0 (-1074)

end Float64

/-- Entry `k` of the `POW10` table: the Rust literal `1eK`, i.e. the double
nearest to `10^k` (Rust float literals are correctly rounded). -/
def pow10f (k : Nat) : Float64 := Float64.ofNat (10 ^ k)

/-! ### Number lexer (de.rs `parse_integer` and friends) -/

def u64Max : Nat := 18446744073709551615

def i32Max : Nat := 2147483647

/-- The `overflow!(a * 10 + b, u64::MAX)` check of de.rs. -/
def overflowU64 (a b : Nat) : Bool :=
  a ≥ u64Max / 10 && (a > u64Max / 10 || b > u64Max % 10)

/-- The `overflow!(exp * 10 + digit, i32::MAX)` check of de.rs. -/
def overflowI32 (a b : Nat) : Bool :=
  a ≥ i32Max / 10 && (a > i32Max / 10 || b > i32Max % 10)

/-- `i32` saturating clamp, for `saturating_add` / `saturating_sub`. -/
def satI32 (x : Int) : Int := max (-2147483648) (min 2147483647 x)

/-- Head byte, or the NUL that `peek_or_nul` / `next_or_nul` substitute. -/
def headOr0 (l : List Nat) : Nat := l.head?.getD 0

/-- True when the peeked byte is `e` or `E`. -/
def isExpByte (o : Option Nat) : Bool := o == some 101 || o == some 69

/-- Lexer events (`enum Event` of de.rs). -/
inductive EventV where
  | null
  | bool (b : Bool)
  | str (s : List Nat)
  | negative (n : Int)
  | nonnegative (n : Nat)
  | float (f : Float64)
  | seqStart
  | mapStart
deriving DecidableEq

/-- The loop of `f64_from_parts`, fuel-indexed (each pass moves the
exponent 308 closer to the table, so `natAbs + 1` fuel always suffices):
scale `fl` by `10^exponent` through the `POW10` table, dividing by `1e308`
while the exponent is below the table. -/
def f64FromPartsGo : Nat → Float64 → Int → Except Unit Float64
  | 0, _, _ => .error ()
  | fuel + 1, fl, exponent =>
    if exponent.natAbs ≤ 308 then
      let pow := pow10f exponent.natAbs
      if 0 ≤ exponent then
        let f2 := fl.mul pow
        if f2.isInfinite then .error () else .ok f2
      else .ok (fl.div pow)
    else
      if fl.isZero then .ok fl
      else if 0 ≤ exponent then .error ()
      else f64FromPartsGo fuel (fl.div (pow10f 308)) (exponent + 308)

/-- `f64_from_parts(nonnegative, significand, exponent)` of de.rs. -/
def f64FromParts (nonnegative : Bool) (significand : Nat) (exponent : Int) :
    Except Unit Float64 :=
  (f64FromPartsGo (exponent.natAbs + 1) (Float64.ofNat significand) exponent).map
    (fun f => if nonnegative then f else f.neg)

/-- Drop a maximal run of ASCII digits (the drain loops of de.rs). -/
def dropDigits : List Nat → List Nat
  | [] => []
  | b :: t => if isDigitByte b then dropDigits t else b :: t

/-- `parse_exponent_overflow` of de.rs: reached when the exponent accumulator
would overflow `i32`. -/
def parseExponentOverflow (nonnegative : Bool) (significand : Nat)
    (positiveExp : Bool) (rem : List Nat) : Except Unit (Float64 × List Nat) :=
  if significand ≠ 0 && positiveExp then .error ()
  else .ok ((if nonnegative then Float64.posZero else Float64.negZero), dropDigits rem)

/-- Wrap up `parse_exponent` after its digit loop: saturating exponent
arithmetic followed by `f64_from_parts`. -/
def parseExpFinish (nonnegative : Bool) (significand : Nat) (startingExp : Int)
    (positiveExp : Bool) (exp : Nat) (rem : List Nat) :
    Except Unit (Float64 × List Nat) :=
  let finalExp := if positiveExp then satI32 (startingExp + exp)
                  else satI32 (startingExp - exp)
  (f64FromParts nonnegative significand finalExp).map (fun f => (f, rem))

/-- The digit-accumulation loop of `parse_exponent`. -/
def parseExpLoop (nonnegative : Bool) (significand : Nat) (startingExp : Int)
    (positiveExp : Bool) (exp : Nat) : List Nat → Except Unit (Float64 × List Nat)
  | b :: t =>
    if isDigitByte b then
      let digit := b - 48
      if overflowI32 exp digit then
        parseExponentOverflow nonnegative significand positiveExp t
      else parseExpLoop nonnegative significand startingExp positiveExp (exp * 10 + digit) t
    else parseExpFinish nonnegative significand startingExp positiveExp exp (b :: t)
  | [] => parseExpFinish nonnegative significand startingExp positiveExp exp []

/-- `parse_exponent` of de.rs.  On entry the cursor still sits on the `e` or
`E` byte, which the source consumes with its leading `self.bump()`. -/
def parseExponent (nonnegative : Bool) (significand : Nat) (startingExp : Int)
    (rem : List Nat) : Except Unit (Float64 × List Nat) :=
  let rem0 := rem.tail
  let step : Bool × List Nat :=
    match rem0 with
    | 43 :: t => (true, t)
    | 45 :: t => (false, t)
    | _ => (true, rem0)
  match step.2 with
  | b :: t =>
    if isDigitByte b then parseExpLoop nonnegative significand startingExp step.1 (b - 48) t
    else .error ()
  | [] => .error ()

/-- Wrap up `parse_decimal` after its digit loop. -/
def parseDecFinish (nonnegative : Bool) (significand : Nat) (exponent : Int)
    (atLeastOne : Bool) (rem : List Nat) : Except Unit (Float64 × List Nat) :=
  if !atLeastOne then .error ()
  else if isExpByte rem.head? then parseExponent nonnegative significand exponent rem
  else (f64FromParts nonnegative significand exponent).map (fun f => (f, rem))

/-- The fractional-digit loop of `parse_decimal`: accumulate into the `u64`
significand while decrementing the exponent; once a further digit would
overflow, silently drain the remaining fractional digits. -/
def parseDecLoop (nonnegative : Bool) (significand : Nat) (exponent : Int)
    (atLeastOne : Bool) : List Nat → Except Unit (Float64 × List Nat)
  | b :: t =>
    if isDigitByte b then
      let digit := b - 48
      if overflowU64 significand digit then
        parseDecFinish nonnegative significand exponent true (dropDigits t)
      else parseDecLoop nonnegative (significand * 10 + digit) (exponent - 1) true t
    else parseDecFinish nonnegative significand exponent atLeastOne (b :: t)
  | [] => parseDecFinish nonnegative significand exponent atLeastOne []

/-- `parse_decimal` of de.rs; the leading `self.bump()` consumes the dot. -/
def parseDecimal (nonnegative : Bool) (significand : Nat) (exponent : Int)
    (rem : List Nat) : Except Unit (Float64 × List Nat) :=
  parseDecLoop nonnegative significand exponent false rem.tail

/-- `parse_long_integer` of de.rs: consume the remaining integer digits while
incrementing a decimal exponent, then finish as a float. -/
def parseLongInteger (nonnegative : Bool) (significand : Nat) (exponent : Int) :
    List Nat → Except Unit (Float64 × List Nat)
  | b :: t =>
    if isDigitByte b then parseLongInteger nonnegative significand (exponent + 1) t
    else if b = 46 then parseDecimal nonnegative significand exponent (b :: t)
    else if b = 101 ∨ b = 69 then parseExponent nonnegative significand exponent (b :: t)
    else (f64FromParts nonnegative significand exponent).map (fun f => (f, b :: t))
  | [] => (f64FromParts nonnegative significand exponent).map (fun f => (f, []))

/-- Rust `(significand as i64).wrapping_neg()`. -/
def wrapNegI64 (significand : Nat) : Int :=
  let v : Nat := (2 ^ 64 - significand % 2 ^ 64) % 2 ^ 64
  if v < 2 ^ 63 then (v : Int) else (v : Int) - 2 ^ 64

/-- `parse_number` of de.rs: number finalization after the integer body. -/
def parseNumber (nonnegative : Bool) (significand : Nat) (rem : List Nat) :
    Except Unit (EventV × List Nat) :=
  if rem.head? = some 46 then
    (parseDecimal nonnegative significand 0 rem).map (fun p => (.float p.1, p.2))
  else if isExpByte rem.head? then
    (parseExponent nonnegative significand 0 rem).map (fun p => (.float p.1, p.2))
  else
    .ok
      (if nonnegative then (.nonnegative significand)
       else
         let neg := wrapNegI64 significand
         if 0 < neg then .float (Float64.ofNat significand).neg
         else .negative neg,
       rem)

/-- The digit-accumulation loop of `parse_integer` for a first digit in
`1..=9`; on `u64` overflow it switches to `parse_long_integer`. -/
def parseIntLoop (nonnegative : Bool) (res : Nat) :
    List Nat → Except Unit (EventV × List Nat)
  | b :: t =>
    if isDigitByte b then
      let digit := b - 48
      if overflowU64 res digit then
        (parseLongInteger nonnegative res 1 t).map (fun p => (.float p.1, p.2))
      else parseIntLoop nonnegative (res * 10 + digit) t
    else parseNumber nonnegative res (b :: t)
  | [] => parseNumber nonnegative res []

/-- `parse_integer(nonnegative, first_digit)` of de.rs (the first digit has
already been consumed by `event`). -/
def parseInteger (nonnegative : Bool) (firstDigit : Nat) (rem : List Nat) :
    Except Unit (EventV × List Nat) :=
  if firstDigit = 48 then
    if isDigitByte (headOr0 rem) then .error () else parseNumber nonnegative 0 rem
  else if 49 ≤ firstDigit && firstDigit ≤ 57 then
    parseIntLoop nonnegative (firstDigit - 48) rem
  else .error ()

/-! ### String lexer (de.rs `parse_str`, `parse_escape`, `decode_hex_escape`) -/

/-- UTF-8 encoding of a Unicode scalar value (`char::encode_utf8`). -/
def utf8Encode (n : Nat) : List Nat :=
  if n < 0x80 then [n]
  else if n < 0x800 then [0xC0 + n / 64, 0x80 + n % 64]
  else if n < 0x10000 then [0xE0 + n / 4096, 0x80 + n / 64 % 64, 0x80 + n % 64]
  else [0xF0 + n / 262144, 0x80 + n / 4096 % 64, 0x80 + n / 64 % 64, 0x80 + n % 64]

/-- Validity test of `char::from_u32`: a Unicode scalar value. -/
def charValid (n : Nat) : Bool := n < 0x110000 && !(0xD800 ≤ n && n ≤ 0xDFFF)

/-- One hex digit of `decode_hex_escape` (case-insensitive). -/
def hexVal (c : Nat) : Except Unit Nat :=
  if 48 ≤ c && c ≤ 57 then .ok (c - 48)
  else if c = 97 || c = 65 then .ok 10
  else if c = 98 || c = 66 then .ok 11
  else if c = 99 || c = 67 then .ok 12
  else if c = 100 || c = 68 then .ok 13
  else if c = 101 || c = 69 then .ok 14
  else if c = 102 || c = 70 then .ok 15
  else .error ()

/-- `decode_hex_escape` of de.rs: exactly four hex digits into a `u16`. -/
def decodeHexEscape : List Nat → Except Unit (Nat × List Nat)
  | c1 :: c2 :: c3 :: c4 :: t => do
    let v1 ← hexVal c1
    let v2 ← hexVal c2
    let v3 ← hexVal c3
    let v4 ← hexVal c4
    .ok (((v1 * 16 + v2) * 16 + v3) * 16 + v4, t)
  | _ => .error ()

/-- The low-surrogate check and pair combination after a high surrogate
`n1`: require a following `\u` escape with code unit in `0xDC00..=0xDFFF`,
then combine and encode (the tail of the `b'u'` arm of `parse_escape`). -/
def parseSurrogatePair (buffer : List Nat) (n1 : Nat) (r1 : List Nat) :
    Except Unit (List Nat × List Nat) :=
  match r1 with
  | [] => .error ()
  | a :: r1a =>
    if a ≠ 92 then .error ()
    else
      match r1a with
      | [] => .error ()
      | u :: r2 =>
        if u ≠ 117 then .error ()
        else
          match decodeHexEscape r2 with
          | .error () => .error ()
          | .ok (n2, r3) =>
            if n2 < 0xDC00 || 0xDFFF < n2 then .error ()
            else
              let n := ((n1 - 0xD800) <<< 10 ||| (n2 - 0xDC00)) + 0x10000
              if charValid n then .ok (buffer ++ utf8Encode n, r3) else .error ()

/-- The `b'u'` arm of `parse_escape`: surrogate handling and UTF-8 output. -/
def parseUnicodeEscape (buffer : List Nat) (rem : List Nat) :
    Except Unit (List Nat × List Nat) :=
  match decodeHexEscape rem with
  | .error () => .error ()
  | .ok (n1, r1) =>
    if 0xDC00 ≤ n1 && n1 ≤ 0xDFFF then .error ()
    else if 0xD800 ≤ n1 && n1 ≤ 0xDBFF then parseSurrogatePair buffer n1 r1
    else if charValid n1 then .ok (buffer ++ utf8Encode n1, r1) else .error ()

/-- `parse_escape` of de.rs: the byte after the backslash dispatches; decoded
bytes are appended to the scratch buffer. -/
def parseEscape (buffer : List Nat) : List Nat → Except Unit (List Nat × List Nat)
  | [] => .error ()
  | ch :: t =>
    if ch = 34 then .ok (buffer ++ [34], t)
    else if ch = 92 then .ok (buffer ++ [92], t)
    else if ch = 47 then .ok (buffer ++ [47], t)
    else if ch = 98 then .ok (buffer ++ [8], t)
    else if ch = 102 then .ok (buffer ++ [12], t)
    else if ch = 110 then .ok (buffer ++ [10], t)
    else if ch = 114 then .ok (buffer ++ [13], t)
    else if ch = 116 then .ok (buffer ++ [9], t)
    else if ch = 117 then parseUnicodeEscape buffer t
    else .error ()

theorem decodeHexEscape_length :
    ∀ rem n r, decodeHexEscape rem = .ok (n, r) → r.length + 4 = rem.length := by
  intro rem n r h
  match rem with
  | [] => simp [decodeHexEscape] at h
  | [_] => simp [decodeHexEscape] at h
  | [_, _] => simp [decodeHexEscape] at h
  | [_, _, _] => simp [decodeHexEscape] at h
  | c1 :: c2 :: c3 :: c4 :: t =>
    cases h1 : hexVal c1 <;> cases h2 : hexVal c2 <;> cases h3 : hexVal c3 <;>
      cases h4 : hexVal c4 <;>
      simp [decodeHexEscape, h1, h2, h3, h4, bind, Except.bind] at h
    obtain ⟨-, hr⟩ := h
    simp [← hr]

theorem parseSurrogatePair_length {buffer r1 b r} {n1 : Nat} :
    parseSurrogatePair buffer n1 r1 = .ok (b, r) → r.length ≤ r1.length := by
  intro h
  match r1 with
  | [] => simp [parseSurrogatePair] at h
  | a :: r1a =>
    simp only [parseSurrogatePair] at h
    split at h
    · simp at h
    · match r1a, h with
      | [], h => simp at h
      | u :: r2, h =>
        simp only at h
        split at h
        · simp at h
        · cases h2 : decodeHexEscape r2 with
          | error e => cases e; rw [h2] at h; simp at h
          | ok q =>
            obtain ⟨n2, r3⟩ := q
            have hl2 := decodeHexEscape_length r2 n2 r3 h2
            rw [h2] at h
            simp only at h
            split at h
            · simp at h
            · split at h
              · simp only [Except.ok.injEq, Prod.mk.injEq] at h
                obtain ⟨-, hr⟩ := h
                subst hr
                simp only [List.length_cons]
                omega
              · simp at h

theorem parseUnicodeEscape_length {buffer rem b r} :
    parseUnicodeEscape buffer rem = .ok (b, r) → r.length ≤ rem.length := by
  intro h
  unfold parseUnicodeEscape at h
  cases h1 : decodeHexEscape rem with
  | error e => cases e; rw [h1] at h; simp at h
  | ok p =>
    obtain ⟨n1, r1⟩ := p
    have hl1 := decodeHexEscape_length rem n1 r1 h1
    rw [h1] at h
    simp only at h
    split at h
    · simp at h
    · split at h
      · have := parseSurrogatePair_length h
        omega
      · split at h
        · simp only [Except.ok.injEq, Prod.mk.injEq] at h
          obtain ⟨-, hr⟩ := h
          subst hr
          omega
        · simp at h

theorem parseEscape_length {buffer rem b r} :
    parseEscape buffer rem = .ok (b, r) → r.length < rem.length := by
  intro h
  match rem with
  | [] => simp [parseEscape] at h
  | ch :: t =>
    simp only [parseEscape] at h
    split_ifs at h <;>
      first
      | (simp only [Except.ok.injEq, Prod.mk.injEq] at h
         obtain ⟨-, hr⟩ := h
         subst hr
         simp)
      | (have hlen := parseUnicodeEscape_length h
         simp only [List.length_cons]
         omega)

/-! ### Byte scanner (`find_next_special_character` and its three back-ends) -/

/-- The scalar back-end: index of the first `"` or `\` byte, else the length. -/
def findSpecialCharScalar (slice : List Nat) : Nat :=
  match slice.findIdx? (fun b => b == 92 || b == 34) with
  | some i => i
  | none => slice.length

/-- `_mm…_movemask_epi8` over the comparison results: bit `k` of the mask is
set exactly when byte `k` of the chunk matched. -/
def movemask : List Bool → Nat
  | [] => 0
  | b :: t => (if b then 1 else 0) + 2 * movemask t

/-- `u32::trailing_zeros` (32 for zero, as on a 32-bit mask). -/
def trailingZeros (n : Nat) : Nat :=
  if n = 0 then 32
  else if n % 2 = 1 then 0
  else 1 + trailingZeros (n / 2)
termination_by n
decreasing_by omega

/-- The 32-byte-lane loop of `find_special_char_avx2`: compare each chunk
byte against `"` and `\`, or the masks, and take the lowest set bit. -/
def findSpecialCharAvx2Go (slice : List Nat) (i : Nat) : Nat :=
  if i + 32 ≤ slice.length then
    let chunk := (slice.drop i).take 32
    let mask := movemask (chunk.map (fun b => b == 34 || b == 92))
    if mask ≠ 0 then i + trailingZeros mask
    else findSpecialCharAvx2Go slice (i + 32)
  else if i < slice.length then i + findSpecialCharScalar (slice.drop i)
  else i
termination_by slice.length - i
decreasing_by omega

/-- `find_special_char_avx2` of de.rs. -/
def findSpecialCharAvx2 (slice : List Nat) : Nat := findSpecialCharAvx2Go slice 0

/-- The 16-byte-lane loop of `find_special_char_sse2`. -/
def findSpecialCharSse2Go (slice : List Nat) (i : Nat) : Nat :=
  if i + 16 ≤ slice.length then
    let chunk := (slice.drop i).take 16
    let mask := movemask (chunk.map (fun b => b == 34 || b == 92))
    if mask ≠ 0 then i + trailingZeros mask
    else findSpecialCharSse2Go slice (i + 16)
  else if i < slice.length then i + findSpecialCharScalar (slice.drop i)
  else i
termination_by slice.length - i
decreasing_by omega

/-- `find_special_char_sse2` of de.rs. -/
def findSpecialCharSse2 (slice : List Nat) : Nat := findSpecialCharSse2Go slice 0

/-- `find_next_special_character` of de.rs, with the runtime CPU-feature
detection results passed as flags. -/
def findNextSpecialCharacter (hasAvx2 hasSse2 : Bool) (slice : List Nat) : Nat :=
  if hasAvx2 then findSpecialCharAvx2 slice
  else if hasSse2 then findSpecialCharSse2 slice
  else findSpecialCharScalar slice

/-! ### UTF-8 validation (`str::from_utf8`, used by the byte-slice entry) -/

/-- A UTF-8 continuation byte. -/
def isCont (b : Nat) : Bool := 0x80 ≤ b && b ≤ 0xBF

/-- Validity per Rust `str::from_utf8` (well-formed UTF-8, shortest form,
no surrogates, max U+10FFFF), fuel-indexed; each step consumes one encoded
character, so `length + 1` fuel always suffices. -/
def utf8ValidGo : Nat → List Nat → Bool
  | 0, l => l.isEmpty
  | _ + 1, [] => true
  | f + 1, b :: t =>
    if b ≤ 0x7F then utf8ValidGo f t
    else if 0xC2 ≤ b && b ≤ 0xDF then
      match t with
      | c :: t2 => isCont c && utf8ValidGo f t2
      | [] => false
    else if b = 0xE0 then
      match t with
      | c :: d :: t2 => (0xA0 ≤ c && c ≤ 0xBF) && isCont d && utf8ValidGo f t2
      | _ => false
    else if (0xE1 ≤ b && b ≤ 0xEC) || b = 0xEE || b = 0xEF then
      match t with
      | c :: d :: t2 => isCont c && isCont d && utf8ValidGo f t2
      | _ => false
    else if b = 0xED then
      match t with
      | c :: d :: t2 => (0x80 ≤ c && c ≤ 0x9F) && isCont d && utf8ValidGo f t2
      | _ => false
    else if b = 0xF0 then
      match t with
      | c :: d :: e :: t2 => (0x90 ≤ c && c ≤ 0xBF) && isCont d && isCont e && utf8ValidGo f t2
      | _ => false
    else if 0xF1 ≤ b && b ≤ 0xF3 then
      match t with
      | c :: d :: e :: t2 => isCont c && isCont d && isCont e && utf8ValidGo f t2
      | _ => false
    else if b = 0xF4 then
      match t with
      | c :: d :: e :: t2 => (0x80 ≤ c && c ≤ 0x8F) && isCont d && isCont e && utf8ValidGo f t2
      | _ => false
    else false

/-- `str::from_utf8` validity of a byte list. -/
def utf8Valid (l : List Nat) : Bool := utf8ValidGo (l.length + 1) l

/-- The main loop of `parse_str`, fuel-indexed (each pass consumes at least
two bytes, so `length + 1` fuel always suffices).  `buffer` is the scratch
buffer (cleared on entry by the source); the scanner offset uses the scalar
back-end, which by `find_special_backends_agree` below computes the same
result as the runtime-dispatched `find_next_special_character`. -/
def parseStrLoop (validate : Bool) : Nat → List Nat → List Nat →
    Except Unit (List Nat × List Nat)
  | 0, _, _ => .error ()
  | fuel + 1, buffer, rem =>
    let offset := findSpecialCharScalar rem
    if offset = rem.length then .error ()
    else
      match rem.drop offset with
      | [] => .error ()
      | b :: t =>
        let chunk := rem.take offset
        if b = 34 then
          if buffer.isEmpty then
            if validate then (if utf8Valid chunk then .ok (chunk, t) else .error ())
            else .ok (chunk, t)
          else
            if validate && !utf8Valid chunk then .error ()
            else .ok (buffer ++ chunk, t)
        else if b = 92 then
          if validate && !utf8Valid chunk then .error ()
          else
            match parseEscape (buffer ++ chunk) t with
            | .ok pr => parseStrLoop validate fuel pr.1 pr.2
            | .error () => .error ()
        else .error ()

/-- `parse_str` of de.rs (called just after the opening quote; the scratch
buffer starts cleared). -/
def parseStr (validate : Bool) (rem : List Nat) : Except Unit (List Nat × List Nat) :=
  parseStrLoop validate (rem.length + 1) [] rem

/-! ### Event lexer (`Deserializer::event`) -/

/-- `parse_ident` of de.rs: match an expected byte sequence. -/
def parseIdent : List Nat → List Nat → Except Unit (List Nat)
  | [], rem => .ok rem
  | e :: es, rem =>
    match rem with
    | [] => .error ()
    | b :: t => if b = e then parseIdent es t else .error ()

/-- `Deserializer::event` of de.rs: skip whitespace, then lex one event. -/
def event (validate : Bool) (rem : List Nat) : Except Unit (EventV × List Nat) :=
  match skipWs rem with
  | [] => .error ()
  | b :: t =>
    if b = 34 then (parseStrLoop validate (t.length + 1) [] t).map (fun p => (.str p.1, p.2))
    else if isDigitByte b then parseInteger true b t
    else if b = 45 then parseInteger false (headOr0 t) t.tail
    else if b = 123 then .ok (.mapStart, t)
    else if b = 91 then .ok (.seqStart, t)
    else if b = 110 then (parseIdent [117, 108, 108] t).map (fun r => (.null, r))
    else if b = 116 then (parseIdent [114, 117, 101] t).map (fun r => (.bool true, r))
    else if b = 102 then (parseIdent [97, 108, 115, 101] t).map (fun r => (.bool false, r))
    else .error ()

/-! ### The Value tree (value.rs) -/

/-- `json::Number`: three-way sum of `U64`, `I64`, `F64`. -/
inductive NumberV where
  | u64 (n : Nat)
  | i64 (n : Int)
  | f64 (f : Float64)
deriving DecidableEq

/-- `json::Value`.  Strings are UTF-8 byte lists; `object` is the ordered
map's entry list in its iteration order (sorted by key, see `objInsert`). -/
inductive Value where
  | null
  | bool (b : Bool)
  | number (n : NumberV)
  | string (s : List Nat)
  | array (a : List Value)
  | object (o : List (List Nat × Value))

mutual

/-- Structural equality on values (the derived `PartialEq` of value.rs). -/
def beqV : Value → Value → Bool
  | .null, .null => true
  | .bool a, .bool b => a == b
  | .number a, .number b => a == b
  | .string a, .string b => a == b
  | .array a, .array b => beqL a b
  | .object a, .object b => beqP a b
  | _, _ => false

def beqL : List Value → List Value → Bool
  | [], [] => true
  | a :: s, b :: t => beqV a b && beqL s t
  | _, _ => false

def beqP : List (List Nat × Value) → List (List Nat × Value) → Bool
  | [], [] => true
  | (k1, v1) :: s, (k2, v2) :: t => k1 == k2 && beqV v1 v2 && beqP s t
  | _, _ => false

end

mutual

theorem beqV_iff : ∀ a b : Value, beqV a b = true ↔ a = b
  | .null, b => by cases b <;> simp [beqV]
  | .bool x, b => by cases b <;> simp [beqV]
  | .number x, b => by cases b <;> simp [beqV]
  | .string x, b => by cases b <;> simp [beqV]
  | .array xs, b => by
    cases b with
    | array ys => simpa [beqV] using beqL_iff xs ys
    | null => simp [beqV]
    | bool => simp [beqV]
    | number => simp [beqV]
    | string => simp [beqV]
    | object => simp [beqV]
  | .object xs, b => by
    cases b with
    | object ys => simpa [beqV] using beqP_iff xs ys
    | null => simp [beqV]
    | bool => simp [beqV]
    | number => simp [beqV]
    | string => simp [beqV]
    | array => simp [beqV]
termination_by a _ => sizeOf a

theorem beqL_iff : ∀ a b : List Value, beqL a b = true ↔ a = b
  | [], b => by cases b <;> simp [beqL]
  | x :: s, b => by
    cases b with
    | nil => simp [beqL]
    | cons y t =>
      simp only [beqL, Bool.and_eq_true, beqV_iff x y, beqL_iff s t, List.cons.injEq]
termination_by a _ => sizeOf a

theorem beqP_iff : ∀ a b : List (List Nat × Value), beqP a b = true ↔ a = b
  | [], b => by cases b <;> simp [beqP]
  | (k1, v1) :: s, b => by
    cases b with
    | nil => simp [beqP]
    | cons y t =>
      obtain ⟨k2, v2⟩ := y
      simp only [beqP, Bool.and_eq_true, beqV_iff v1 v2, beqP_iff s t, List.cons.injEq,
        Prod.mk.injEq, beq_iff_eq]
termination_by a _ => sizeOf a

end

instance : DecidableEq Value := fun a b => decidable_of_iff _ (beqV_iff a b)

/-- Byte-lexicographic strict order on keys (Rust `String` ordering). -/
def lexLt : List Nat → List Nat → Bool
  | [], [] => false
  | [], _ :: _ => true
  | _ :: _, [] => false
  | a :: s, b :: t => if a < b then true else if b < a then false else lexLt s t

/-- Modelled from the spec: `json::Object` (defined outside src/) is the
crate's ordered map; §3 calls it an "ordered mapping", the non-goals rule
out "preserving map insertion order beyond what the underlying ordered map
provides", and tests/test_value.rs `test_debug` observes the keys iterated
in sorted order regardless of insertion order.  `insert` places the entry at
its key-sorted position, replacing an existing equal key. -/
def objInsert (k : List Nat) (v : Value) : List (List Nat × Value) → List (List Nat × Value)
  | [] => [(k, v)]
  | (k2, v2) :: t =>
    if lexLt k k2 then (k, v) :: (k2, v2) :: t
    else if k = k2 then (k, v) :: t
    else (k2, v2) :: objInsert k v t

/-! ### The deserialize driver (`from_slice_impl` of de.rs, instantiated at
the `Value` visitor of value.rs)

The source drives a `dyn Visitor` through an explicit stack of
`(outer_visitor, Layer)` frames.  Instantiated at `Value`, each layer is an
`ArrayBuilder` (partial array plus the pending element slot) or an
`ObjectBuilder` (partial object, pending key, pending value slot); the
`outer_visitor` pointer of a frame always designates the slot of the layer
below it (or the root `out` slot), so frames reduce to their layers. -/

inductive LayerV where
  | seq (arr : List Value) (elem : Option Value)
  | map (obj : List (List Nat × Value)) (key : Option (List Nat)) (val : Option Value)
deriving DecidableEq

/-- The three control points of the driver loop: about to lex a value
(`'outer` loop top), inside the delimiter loop, or at the element phase. -/
inductive Phase where
  | pvalue
  | pdelim (layer : LayerV) (acceptComma : Bool)
  | pelem (layer : LayerV)
deriving DecidableEq

/-- Store a completed value into the slot of the innermost layer (the
visitor produced by `Seq::element` or `Map::key` writes there). -/
def writeSlot : LayerV → Value → LayerV
  | .seq arr _, v => .seq arr (some v)
  | .map obj k _, v => .map obj k (some v)

/-- `ArrayBuilder::shift`: move the pending element into the array. -/
def seqShift : List Value → Option Value → List Value
  | arr, some v => arr ++ [v]
  | arr, none => arr

/-- `ObjectBuilder::shift`: move a completed pending pair into the object. -/
def mapShift : List (List Nat × Value) → Option (List Nat) → Option Value →
    List (List Nat × Value)
  | obj, some k, some v => objInsert k v obj
  | obj, some _, none => obj
  | obj, none, _ => obj

/-- After the outer loop exits: only whitespace may remain. -/
def finalCheck (rem : List Nat) (out : Option Value) : Except Unit (Option Value) :=
  match skipWs rem with
  | [] => .ok out
  | _ :: _ => .error ()

/-- The driver loop of `from_slice_impl`, fuel-indexed.  Each recursive call
consumes one unit of fuel; `fromSliceImpl` below supplies more fuel than any
input can use, so the fuel-exhaustion branch is unreachable. -/
def drive (validate : Bool) : Nat → Phase → List Nat → Option Value → List LayerV →
    Except Unit (Option Value)
  | 0, _, _, _, _ => .error ()
  | f + 1, .pvalue, rem, out, stack =>
    match event validate rem with
    | .error () => .error ()
    | .ok (ev, rem1) =>
      match ev with
      | .null =>
        match stack with
        | [] => finalCheck rem1 (some .null)
        | l :: s => drive validate f (.pdelim (writeSlot l .null) true) rem1 out s
      | .bool b =>
        match stack with
        | [] => finalCheck rem1 (some (.bool b))
        | l :: s => drive validate f (.pdelim (writeSlot l (.bool b)) true) rem1 out s
      | .str str =>
        match stack with
        | [] => finalCheck rem1 (some (.string str))
        | l :: s => drive validate f (.pdelim (writeSlot l (.string str)) true) rem1 out s
      | .negative n =>
        match stack with
        | [] => finalCheck rem1 (some (.number (.i64 n)))
        | l :: s => drive validate f (.pdelim (writeSlot l (.number (.i64 n))) true) rem1 out s
      | .nonnegative n =>
        match stack with
        | [] => finalCheck rem1 (some (.number (.u64 n)))
        | l :: s => drive validate f (.pdelim (writeSlot l (.number (.u64 n))) true) rem1 out s
      | .float x =>
        match stack with
        | [] => finalCheck rem1 (some (.number (.f64 x)))
        | l :: s => drive validate f (.pdelim (writeSlot l (.number (.f64 x))) true) rem1 out s
      | .seqStart => drive validate f (.pdelim (.seq [] none) false) rem1 out stack
      | .mapStart => drive validate f (.pdelim (.map [] none none) false) rem1 out stack
  | f + 1, .pdelim l acc, rem, out, stack =>
    match skipWs rem with
    | [] => if acc then .error () else drive validate f (.pelem l) [] out stack
    | b :: t =>
      if b = 44 && acc then drive validate f (.pelem l) t out stack
      else if b = 93 then
        match l with
        | .seq arr elem =>
          let a := Value.array (seqShift arr elem)
          match stack with
          | [] => finalCheck t (some a)
          | l2 :: s2 => drive validate f (.pdelim (writeSlot l2 a) true) t out s2
        | .map _ _ _ => .error ()
      else if b = 125 then
        match l with
        | .map obj k v =>
          let o := Value.object (mapShift obj k v)
          match stack with
          | [] => finalCheck t (some o)
          | l2 :: s2 => drive validate f (.pdelim (writeSlot l2 o) true) t out s2
        | .seq _ _ => .error ()
      else if acc then .error ()
      else drive validate f (.pelem l) (b :: t) out stack
  | f + 1, .pelem l, rem, out, stack =>
    match l with
    | .seq arr elem =>
      drive validate f .pvalue rem out (.seq (seqShift arr elem) none :: stack)
    | .map obj key val =>
      match skipWs rem with
      | b :: t =>
        if b = 34 then
          match event validate (b :: t) with
          | .ok (.str k, rem2) =>
            let obj2 := mapShift obj key val
            match skipWs rem2 with
            | 58 :: t2 => drive validate f .pvalue t2 out (.map obj2 (some k) none :: stack)
            | _ => .error ()
          | .ok _ => .error ()
          | .error () => .error ()
        else .error ()
      | [] => .error ()

/-- Continuation after a completed value has been stored: pop a frame into
the delimiter loop, or, with an empty stack, exit the outer loop into the
trailing-whitespace check.  `drive` at phase `.pvalue` reduces to this once
the lexed value is known (see `drive_scalar` style lemmas below). -/
def deliver (validate : Bool) (f : Nat) (rem : List Nat) (out : Option Value)
    (stack : List LayerV) (v : Value) : Except Unit (Option Value) :=
  match stack with
  | [] => finalCheck rem (some v)
  | l :: s => drive validate f (.pdelim (writeSlot l v) true) rem out s

/-- `from_slice_impl` at the `Value` visitor: run the driver with ample
fuel. -/
def fromSliceImpl (validate : Bool) (j : List Nat) : Except Unit (Option Value) :=
  drive validate (3 * j.length + 8) .pvalue j none []

/-- `json::from_str::<Value>`: text input, per-chunk UTF-8 validation
skipped; `out.ok_or(Error)` unwraps the root slot. -/
def fromStrValue (j : List Nat) : Except Unit Value :=
  match fromSliceImpl false j with
  | .ok (some v) => .ok v
  | .ok none => .error ()
  | .error () => .error ()

/-- `json::from_slice::<Value>`: byte input, UTF-8 validated per chunk. -/
def fromSliceValue (j : List Nat) : Except Unit Value :=
  match fromSliceImpl true j with
  | .ok (some v) => .ok v
  | .ok none => .error ()
  | .error () => .error ()

/-- Modelled from the spec: `from_str::<String>`.  The `String` placement
visitor (crate `de.rs`, outside src/) accepts exactly `string` events; the
driver lexes one root event, delivers it, and requires only whitespace to
remain; every non-string event makes the visitor fail. -/
def fromStrString (j : List Nat) : Except Unit (List Nat) :=
  match event false j with
  | .ok (.str s, rem) =>
    match skipWs rem with
    | [] => .ok s
    | _ :: _ => .error ()
  | .ok _ => .error ()
  | .error () => .error ()

/-! ### JSON string escaping (ser.rs `escape_str` and the `ESCAPE` table) -/

/-- The 256-entry `ESCAPE` table of ser.rs as a function: `0` means no
escape, `b'u'` (117) means a `\u00HH` escape, any other value is the second
byte of a two-character escape. -/
def escapeTable (b : Nat) : Nat :=
  if b = 8 then 98
  else if b = 9 then 116
  else if b = 10 then 110
  else if b = 12 then 102
  else if b = 13 then 114
  else if b ≤ 0x1F then 117
  else if b = 34 then 34
  else if b = 92 then 92
  else 0

/-- `HEX_DIGITS` of ser.rs: lowercase hex digit for a nibble. -/
def hexDigitChar (n : Nat) : Nat := if n < 10 then 48 + n else 87 + n

/-- The slice `bytes[a..b]`. -/
def listSlice (l : List Nat) (a b : Nat) : List Nat := (l.take b).drop a

/-- The main loop of `escape_str`, fuel-indexed (one unit per byte index,
so `length + 1` fuel always suffices): scan bytes by index, flushing
unescaped runs `bytes[start..i]` and emitting escapes; at the end flush the
final run.  The closing quote is written by `escapeStr` below. -/
def escLoop (all : List Nat) : Nat → Nat → Nat → List Nat → List Nat
  | 0, _, _, out => out
  | f + 1, i, start, out =>
    if i < all.length then
      if escapeTable (all.getD i 0) = 0 then escLoop all f (i + 1) start out
      else
        escLoop all f (i + 1) (i + 1)
          ((if start < i then out ++ listSlice all start i else out) ++
            (if escapeTable (all.getD i 0) = 117 then
              [92, 117, 48, 48, hexDigitChar (all.getD i 0 / 16), hexDigitChar (all.getD i 0 % 16)]
            else [92, escapeTable (all.getD i 0)]))
    else if start < all.length then out ++ listSlice all start all.length else out

/-- `escape_str` of ser.rs: quoted, escaped rendering of a string body. -/
def escapeStr (value : List Nat) : List Nat := escLoop value (value.length + 1) 0 0 [34] ++ [34]

/-! ### Integer and float rendering -/

/-- Decimal digit rendering, fuel-indexed (the argument shrinks by a factor
of ten per step, so `n + 1` fuel always suffices). -/
def digitsGo : Nat → Nat → List Nat
  | 0, _ => []
  | f + 1, n => if n < 10 then [48 + n] else digitsGo f (n / 10) ++ [48 + n % 10]

/-- Modelled from the spec: the `itoa` crate (an external dependency) renders
integers in shortest decimal form.  Decimal digits of a natural number. -/
def natToDigits (n : Nat) : List Nat := digitsGo (n + 1) n

theorem digitsGo_congr : ∀ f f' n : Nat, n < f → n < f' → digitsGo f n = digitsGo f' n := by
  intro f
  induction f with
  | zero => intro f' n h; omega
  | succ g ih =>
    intro f' n hf hf'
    match f', hf' with
    | g' + 1, hf' =>
      show (if n < 10 then [48 + n] else digitsGo g (n / 10) ++ [48 + n % 10]) =
        (if n < 10 then [48 + n] else digitsGo g' (n / 10) ++ [48 + n % 10])
      by_cases h10 : n < 10
      · rw [if_pos h10, if_pos h10]
      · rw [if_neg h10, if_neg h10, ih g' (n / 10) (by omega) (by omega)]

theorem natToDigits_unfold (n : Nat) :
    natToDigits n = if n < 10 then [48 + n] else natToDigits (n / 10) ++ [48 + n % 10] := by
  show digitsGo (n + 1) n = _
  by_cases h10 : n < 10
  · rw [if_pos h10]
    show (if n < 10 then _ else _) = _
    rw [if_pos h10]
  · rw [if_neg h10]
    show (if n < 10 then _ else _) = _
    rw [if_neg h10, digitsGo_congr n (n / 10 + 1) (n / 10) (by omega) (by omega)]
    rfl

/-- `itoa` rendering of an `i64`: optional minus sign and decimal digits. -/
def intToDigits (n : Int) : List Nat :=
  if n < 0 then 45 :: natToDigits n.natAbs else natToDigits n.toNat

def nullBytes : List Nat := [110, 117, 108, 108]

def trueBytes : List Nat := [116, 114, 117, 101]

def falseBytes : List Nat := [102, 97, 108, 115, 101]

/-- Correctly rounded decimal-to-binary conversion: the double nearest to
`(-1)^sign * c * 10^t`.  This is the parse direction against which a
shortest representation is validated. -/
def roundDec (sign : Bool) (c : Nat) (t : Int) : Float64 :=
  if 0 ≤ t then roundFrac sign (c * 10 ^ t.toNat) 1 else roundFrac sign c (10 ^ (-t).toNat)

/-- `num/den < 10^D` for a possibly negative `D`. -/
def ltPow10 (num den : Nat) (d : Int) : Bool :=
  if 0 ≤ d then num < den * 10 ^ d.toNat else num * 10 ^ (-d).toNat < den

/-- Scan upward for the least `D` in range with `num/den < 10^D`. -/
def decExpGo (num den : Nat) : Nat → Int → Int
  | 0, d => d
  | k + 1, d => if ltPow10 num den d then d else decExpGo num den k (d + 1)

/-- The decimal position `D` of `num/den`: `10^(D-1) ≤ num/den < 10^D`
(for any positive finite double this lies within the scanned range). -/
def decExp (num den : Nat) : Int := decExpGo num den 700 (-350)

/-- Numerator and denominator of the positive rational `m * 2^e`. -/
def fracOfScaled (m : Nat) (e : Int) : Nat × Nat :=
  if 0 ≤ e then (m * 2 ^ e.toNat, 1) else (m, 2 ^ (-e).toNat)

/-- Round `num/den / 10^t` to the nearest integer (ties to even). -/
def nearestScaled (num den : Nat) (t : Int) : Nat :=
  if 0 ≤ t then nearestEvenDiv num (den * 10 ^ t.toNat)
  else nearestEvenDiv (num * 10 ^ (-t).toNat) den

/-- Number of decimal digits. -/
def digitCount (c : Nat) : Nat := (natToDigits c).length

/-- Strip trailing zero digits, bumping the decimal exponent (fuel-indexed;
`c + 1` fuel always suffices). -/
def stripZerosGo : Nat → Nat → Int → Nat × Int
  | 0, c, t => (c, t)
  | f + 1, c, t => if c ≠ 0 ∧ c % 10 = 0 then stripZerosGo f (c / 10) (t + 1) else (c, t)

def stripZeros (c : Nat) (t : Int) : Nat × Int := stripZerosGo (c + 1) c t

/-- Try the `d`-digit candidates for a shortest representation of the double
with magnitude `m * 2^e`: the nearest `d`-digit decimals; a candidate is
valid when correctly rounded re-parsing recovers the double exactly. -/
def shortestTry (m : Nat) (e : Int) (num den : Nat) (bigD : Int) (d : Nat) :
    Option (Nat × Int) :=
  let t : Int := bigD - d
  let c0 := nearestScaled num den t
  let ok : Nat → Bool := fun c =>
    10 ^ (d - 1) ≤ c && c < 10 ^ d && roundDec false c t == .finite false m e
  if ok c0 then some (c0, t)
  else if ok (c0 + 1) then some (c0 + 1, t)
  else if c0 ≠ 0 && ok (c0 - 1) then some (c0 - 1, t)
  else none

/-- Search digit counts `1..=17` for the shortest valid representation. -/
def shortestGo (m : Nat) (e : Int) (num den : Nat) (bigD : Int) : Nat → Option (Nat × Int)
  | 0 => none
  | k + 1 =>
    let d := 18 - (k + 1)
    match shortestTry m e num den bigD d with
    | some r => some r
    | none => shortestGo m e num den bigD k

/-- Digits-and-exponent form `(c, t)` (value `c * 10^t`) of the shortest
decimal that re-parses to the double `m * 2^e`; falls back to the exact
decimal expansion, which always re-parses exactly. -/
def shortestOf (m : Nat) (e : Int) : Nat × Int :=
  let f := fracOfScaled m e
  match shortestGo m e f.1 f.2 (decExp f.1 f.2) 17 with
  | some (c, t) => stripZeros c t
  | none =>
    if 0 ≤ e then stripZeros (m * 2 ^ e.toNat) 0
    else stripZeros (m * 5 ^ (-e).toNat) e

/-- Decimal rendering of an integer exponent (no plus sign, as ryu). -/
def expDigits (x : Int) : List Nat :=
  if x < 0 then 45 :: natToDigits x.natAbs else natToDigits x.toNat

/-- Lay out digits `c` with scientific exponent `e10` in ryu's pretty
notation: plain decimal for `-5 < e10 < 16`, scientific otherwise. -/
def ryuNotation (c : Nat) (e10 : Int) : List Nat :=
  let ds := natToDigits c
  let k := ds.length
  if 0 ≤ e10 && e10 < 16 then
    let ip := e10.toNat + 1
    if k ≤ ip then ds ++ List.replicate (ip - k) 48 ++ [46, 48]
    else ds.take ip ++ [46] ++ ds.drop ip
  else if -5 < e10 && e10 < 0 then
    [48, 46] ++ List.replicate (-(e10 + 1)).toNat 48 ++ ds
  else
    if k = 1 then ds ++ [101] ++ expDigits e10
    else ds.take 1 ++ [46] ++ ds.drop 1 ++ [101] ++ expDigits e10

/-- Modelled from the spec: the `ryu` crate's `Buffer::format_finite` (an
external dependency) — "the shortest decimal representation of a float such
that re-parsing yields the same float", in ryu's pretty notation. -/
def ryuFormatFinite : Float64 → List Nat
  | .finite s 0 _ => if s then [45, 48, 46, 48] else [48, 46, 48]
  | .finite s m e =>
    let p := shortestOf m e
    let body := ryuNotation p.1 (p.2 + (digitCount p.1 : Int) - 1)
    if s then 45 :: body else body
  | _ => nullBytes

/-! ### The text writer (`to_writer_impl` of ser.rs at the `Value`
serializer of value.rs)

The source walks a `Fragment` stream with an explicit stack of seq/map
iterators.  Instantiated at `Value`, `Serialize::begin` dispatches on the
variant and the iterators are the remaining element and entry lists. -/

inductive WLayer where
  | seq (rest : List Value)
  | map (rest : List (List Nat × Value))

mutual

/-- Exact number of writer-loop steps taken to emit one value (used as the
fuel supply for the fuel-indexed writer loop below). -/
def wcostV : Value → Nat
  | .array l => 2 + wcostL l
  | .object l => 2 + wcostP l
  | _ => 1

def wcostL : List Value → Nat
  | [] => 0
  | x :: t => 1 + wcostV x + wcostL t

def wcostP : List (List Nat × Value) → Nat
  | [] => 0
  | p :: t => 1 + wcostV p.2 + wcostP t

end

/-- The writer loop of `to_writer_impl`, fuel-indexed: `some v` is the
fragment phase (serialize one fragment, descending into a first element),
`none` is the post-element phase (consult the top iterator, emitting
separators and closers).  Each recursive call consumes one unit of fuel and
`toStringValue` supplies exactly enough, so the fuel-exhaustion branch is
unreachable. -/
def writerRun : Nat → Option Value → List WLayer → List Nat → List Nat
  | 0, _, _, out => out
  | f + 1, some v, stack, out =>
    match v with
    | .null => writerRun f none stack (out ++ nullBytes)
    | .bool b => writerRun f none stack (out ++ if b then trueBytes else falseBytes)
    | .string s => writerRun f none stack (out ++ escapeStr s)
    | .number (.u64 n) => writerRun f none stack (out ++ natToDigits n)
    | .number (.i64 n) => writerRun f none stack (out ++ intToDigits n)
    | .number (.f64 x) =>
      writerRun f none stack (out ++ if x.isFinite then ryuFormatFinite x else nullBytes)
    | .array [] => writerRun f none stack (out ++ [91, 93])
    | .array (x :: xs) => writerRun f (some x) (.seq xs :: stack) (out ++ [91])
    | .object [] => writerRun f none stack (out ++ [123, 125])
    | .object (p :: ps) =>
      writerRun f (some p.2) (.map ps :: stack) (out ++ [123] ++ escapeStr p.1 ++ [58])
  | _ + 1, none, [], out => out
  | f + 1, none, .seq rest :: stack, out =>
    match rest with
    | [] => writerRun f none stack (out ++ [93])
    | x :: xs => writerRun f (some x) (.seq xs :: stack) (out ++ [44])
  | f + 1, none, .map rest :: stack, out =>
    match rest with
    | [] => writerRun f none stack (out ++ [125])
    | p :: ps => writerRun f (some p.2) (.map ps :: stack) (out ++ [44] ++ escapeStr p.1 ++ [58])

/-- `json::to_string` at a `Value` argument. -/
def toStringValue (v : Value) : List Nat := writerRun (wcostV v + 1) (some v) [] []

/-! ### Reference printer

A structurally recursive rendering of a `Value`; `writerRun_print` below
proves the iterative writer equal to it. -/

mutual

def printValue : Value → List Nat
  | .null => nullBytes
  | .bool b => if b then trueBytes else falseBytes
  | .number (.u64 n) => natToDigits n
  | .number (.i64 n) => intToDigits n
  | .number (.f64 x) => if x.isFinite then ryuFormatFinite x else nullBytes
  | .string s => escapeStr s
  | .array [] => [91, 93]
  | .array (x :: xs) => 91 :: (printValue x ++ printSeqTail xs) ++ [93]
  | .object [] => [123, 125]
  | .object (p :: ps) =>
    123 :: (escapeStr p.1 ++ 58 :: printValue p.2 ++ printMapTail ps) ++ [125]

def printSeqTail : List Value → List Nat
  | [] => []
  | x :: xs => 44 :: printValue x ++ printSeqTail xs

def printMapTail : List (List Nat × Value) → List Nat
  | [] => []
  | p :: ps => 44 :: escapeStr p.1 ++ 58 :: printValue p.2 ++ printMapTail ps

end

/-! ### The canonical fragment for the round-trip law -/

/-- All bytes are byte-valued. -/
def wfBytes (s : List Nat) : Bool := s.all (· < 256)

mutual

/-- The canonical `Value` class of the (amended) round-trip law: numbers
are integers in their event ranges (`U64` up to `u64::MAX`, `I64` strictly
negative down to `i64::MIN` — the values integer parse events produce),
strings are valid UTF-8 byte lists, and object keys are strictly
increasing in the stored order. -/
def goodV : Value → Bool
  | .null => true
  | .bool _ => true
  | .number (.u64 n) => n ≤ u64Max
  | .number (.i64 n) => -(2 ^ 63) ≤ n && n < 0
  | .number (.f64 _) => false
  | .string s => wfBytes s && utf8Valid s
  | .array l => goodL l
  | .object l => goodP l

def goodL : List Value → Bool
  | [] => true
  | x :: t => goodV x && goodL t

def goodP : List (List Nat × Value) → Bool
  | [] => true
  | p :: t =>
    wfBytes p.1 && utf8Valid p.1 && goodV p.2 &&
      (match t with
       | [] => true
       | q :: _ => lexLt p.1 q.1) && goodP t

end

/-! ### Driver fuel cost

`costV V` is the exact number of fuel units `drive` spends between entering
phase `.pvalue` on `printValue V ++ rest` and reaching the `deliver`
continuation. -/

mutual

def costV : Value → Nat
  | .array l => 2 + costL l
  | .object l => 2 + costP l
  | _ => 1

def costL : List Value → Nat
  | [] => 0
  | x :: t => 2 + costV x + costL t

def costP : List (List Nat × Value) → Nat
  | [] => 0
  | p :: t => 2 + costV p.2 + costP t

end

/-! ### Non-recursive destruction of a Value (claim C2)

Modelled from the spec: value.rs documents a non-recursive `Drop`
implementation for `Value`, but the `Drop` code itself is not among the
source files under src/.  Per §4.6, dropping an `Array` or `Object`
transfers ownership of the children into an explicit worklist of owned
values and drains it iteratively; leaves drop in place.  One `dropStep`
inspects only the worklist head — it never recurses into the tree — so the
host call stack stays constant while the worklist drains. -/

def dropStep : List Value → List Value
  | [] => []
  | .array l :: rest => l ++ rest
  | .object l :: rest => l.map Prod.snd ++ rest
  | _ :: rest => rest

/-- Iterate `dropStep` a given number of times. -/
def drainWorklist : Nat → List Value → List Value
  | 0, w => w
  | n + 1, w => drainWorklist n (dropStep w)

mutual

/-- Total node count of a value tree. -/
def szV : Value → Nat
  | .array l => 1 + szL l
  | .object l => 1 + szP l
  | _ => 1

def szL : List Value → Nat
  | [] => 0
  | x :: t => szV x + szL t

def szP : List (List Nat × Value) → Nat
  | [] => 0
  | p :: t => szV p.2 + szP t

end

/-! ## Claim C2: non-recursive destruction -/

theorem szV_pos : ∀ v : Value, 1 ≤ szV v
  | .null => by simp [szV]
  | .bool _ => by simp [szV]
  | .number _ => by simp [szV]
  | .string _ => by simp [szV]
  | .array _ => by simp [szV]
  | .object _ => by simp [szV]

theorem szL_append : ∀ a b : List Value, szL (a ++ b) = szL a + szL b
  | [], b => by simp [szL]
  | x :: t, b => by simp [szL, szL_append t b]; omega

theorem szL_map_snd : ∀ l : List (List Nat × Value), szL (l.map Prod.snd) = szP l
  | [] => by simp [szL, szP]
  | p :: t => by simp [szL, szP, szL_map_snd t]

theorem drainWorklist_of_le : ∀ n w, szL w ≤ n → drainWorklist n w = [] := by
  intro n
  induction n with
  | zero =>
    intro w hw
    match w with
    | [] => rfl
    | v :: rest =>
      exfalso
      have := szV_pos v
      simp [szL] at hw
      omega
  | succ n ih =>
    intro w hw
    match w with
    | [] =>
      show drainWorklist n (dropStep []) = []
      exact ih [] (by simp [szL])
    | v :: rest =>
      show drainWorklist n (dropStep (v :: rest)) = []
      apply ih
      cases v with
      | array l =>
        simp only [dropStep, szL_append]
        simp [szL, szV] at hw ⊢
        omega
      | object l =>
        simp only [dropStep, szL_append, szL_map_snd]
        simp [szL, szV] at hw ⊢
        omega
      | null => simp [dropStep, szL, szV] at hw ⊢; omega
      | bool b => simp [dropStep, szL, szV] at hw ⊢; omega
      | number m => simp [dropStep, szL, szV] at hw ⊢; omega
      | string s => simp [dropStep, szL, szV] at hw ⊢; omega

/-- C2: dropping a `Value` is non-recursive in its nesting depth: starting
from the worklist holding just `V`, iterating the flat `dropStep` — which
inspects only the worklist head, moving a composite's children onto the
worklist and discarding leaves, exactly the strategy §4.6 prescribes —
drains the whole tree within `szV V` steps, one step per node, with no
recursion into the tree and hence constant host-stack usage per node. -/
theorem drop_worklist_drains : ∀ v : Value, drainWorklist (szV v) [v] = [] := by
  intro v
  exact drainWorklist_of_le (szV v) [v] (by simp [szL])

/-! ## Claim C10: empty or whitespace-only documents are errors -/

theorem event_all_ws {j : List Nat} (validate : Bool)
    (h : ∀ b ∈ j, isWsByte b = true) : event validate j = .error () := by
  unfold event
  rw [skipWs_all_ws j h]

theorem drive_pvalue_event_error {validate : Bool} {f : Nat} {j : List Nat}
    {out stack} (h : event validate j = .error ()) :
    drive validate (f + 1) .pvalue j out stack = .error () := by
  unfold drive
  rw [h]

/-- C10: an input that is empty or contains only whitespace bytes makes both
`from_str` and `from_slice` fail: the driver's first `event` call finds no
byte after skipping whitespace and errors, so no root value (and no default)
is ever produced. -/
theorem ws_only_input_errors : ∀ j : List Nat, (∀ b ∈ j, isWsByte b = true) →
    fromStrValue j = .error () ∧ fromSliceValue j = .error () := by
  intro j h
  have hs : ∀ validate, fromSliceImpl validate j = .error () := by
    intro validate
    show drive validate (3 * j.length + 7 + 1) .pvalue j none [] = .error ()
    exact drive_pvalue_event_error (event_all_ws validate h)
  constructor
  · show fromStrValue j = .error ()
    unfold fromStrValue
    rw [hs false]
  · unfold fromSliceValue
    rw [hs true]

/-- Closed witness for C10 at the empty input and a two-byte whitespace
input. -/
theorem ws_only_input_errors_witness :
    (∀ b ∈ ([] : List Nat), isWsByte b = true) ∧
      fromStrValue [] = .error () ∧ fromSliceValue [] = .error () ∧
      (∀ b ∈ [32, 9], isWsByte b = true) ∧
      fromStrValue [32, 9] = .error () ∧ fromSliceValue [32, 9] = .error () :=
  ⟨by decide,
    (ws_only_input_errors [] (by decide)).1,
    (ws_only_input_errors [] (by decide)).2,
    by decide,
    (ws_only_input_errors [32, 9] (by decide)).1,
    (ws_only_input_errors [32, 9] (by decide)).2⟩

/-! ## Claim C9: mismatched closing brackets fail -/

/-- C9: in the delimiter loop, a closing bracket that does not match the
innermost open layer is a parse error: `]` while the current layer is a Map
fails, `}` while it is a Seq fails, whatever the comma state, stack, or
remaining input; in particular `from_str::<Value>("[1}")` errors. -/
theorem mismatched_bracket_errors :
    (∀ (validate : Bool) (f : Nat) (l : List Nat) (acc : Bool) rem out stack obj k v,
      skipWs rem = 93 :: l →
      drive validate (f + 1) (.pdelim (.map obj k v) acc) rem out stack = .error ()) ∧
    (∀ (validate : Bool) (f : Nat) (l : List Nat) (acc : Bool) rem out stack arr e,
      skipWs rem = 125 :: l →
      drive validate (f + 1) (.pdelim (.seq arr e) acc) rem out stack = .error ()) ∧
    fromStrValue [91, 49, 125] = .error () := by
  refine ⟨?_, ?_, by decide⟩
  · intro validate f l acc rem out stack obj k v hskip
    unfold drive
    rw [hskip]
    simp
  · intro validate f l acc rem out stack arr e hskip
    unfold drive
    rw [hskip]
    simp

/-- Closed witness for C9: the two general clauses applied at concrete
states, plus the concrete mismatched document. -/
theorem mismatched_bracket_errors_witness :
    drive false 1 (.pdelim (.map [] none none) true) [93] none [] = .error () ∧
      drive false 1 (.pdelim (.seq [] none) true) [125] none [] = .error () ∧
      fromStrValue [91, 49, 125] = .error () :=
  ⟨mismatched_bracket_errors.1 false 0 [] true [93] none [] [] none none (by decide),
    mismatched_bracket_errors.2.1 false 0 [] true [125] none [] [] none (by decide),
    mismatched_bracket_errors.2.2⟩

/-! ## Claim C6: the three scanner back-ends agree -/

theorem scalar_nil : findSpecialCharScalar [] = 0 := by
  simp [findSpecialCharScalar, List.findIdx?_nil]

theorem scalar_cons (b : Nat) (t : List Nat) :
    findSpecialCharScalar (b :: t) =
      if b == 92 || b == 34 then 0 else findSpecialCharScalar t + 1 := by
  unfold findSpecialCharScalar
  rw [List.findIdx?_cons]
  by_cases h : (b == 92 || b == 34) = true
  · simp [h]
  · rw [if_neg h, if_neg h]
    rw [show (1 : Nat) = 0 + 1 from rfl, List.findIdx?_succ]
    cases hf : List.findIdx? (fun b => b == 92 || b == 34) t with
    | none => simp
    | some i => simp

theorem predByte_comm (b : Nat) : (b == 34 || b == 92) = (b == 92 || b == 34) :=
  Bool.or_comm _ _

theorem scalar_le : ∀ l : List Nat, findSpecialCharScalar l ≤ l.length
  | [] => by simp [scalar_nil]
  | b :: t => by
    rw [scalar_cons]
    split
    · simp
    · have := scalar_le t
      simp only [List.length_cons]
      omega

theorem scalar_append : ∀ a b : List Nat,
    findSpecialCharScalar (a ++ b) =
      if findSpecialCharScalar a = a.length then a.length + findSpecialCharScalar b
      else findSpecialCharScalar a
  | [], b => by simp [scalar_nil]
  | c :: t, b => by
    have hle := scalar_le t
    rw [List.cons_append, scalar_cons, scalar_cons, scalar_append t b]
    cases hc : (c == 92 || c == 34) with
    | true => simp
    | false =>
      simp only [Bool.false_eq_true, if_false, List.length_cons]
      by_cases ht : findSpecialCharScalar t = t.length
      · rw [if_pos ht, if_pos (by omega)]
        omega
      · rw [if_neg ht, if_neg (by omega)]

/-- Per-chunk correctness of comparison masks: a zero mask means no special
byte (the scalar scan runs off the end); a nonzero mask's lowest set bit is
the scalar scan's answer, which then lies inside the chunk. -/
theorem movemask_tz : ∀ l : List Nat,
    (movemask (l.map (fun b => b == 34 || b == 92)) = 0 →
      findSpecialCharScalar l = l.length) ∧
    (movemask (l.map (fun b => b == 34 || b == 92)) ≠ 0 →
      trailingZeros (movemask (l.map (fun b => b == 34 || b == 92))) =
        findSpecialCharScalar l ∧ findSpecialCharScalar l < l.length)
  | [] => by simp [movemask, scalar_nil]
  | b :: t => by
    obtain ⟨ih0, ih1⟩ := movemask_tz t
    rw [scalar_cons, ← predByte_comm b]
    cases hq : (b == 34 || b == 92) with
    | true =>
      simp only [List.map_cons, movemask, hq, eq_self_iff_true, if_true]
      refine ⟨fun h => by omega, fun _ => ⟨?_, by simp⟩⟩
      unfold trailingZeros
      rw [if_neg (by omega), if_pos (by omega)]
    | false =>
      simp only [List.map_cons, movemask, hq, Bool.false_eq_true, if_false, Nat.zero_add]
      constructor
      · intro h
        have hm : movemask (t.map (fun b => b == 34 || b == 92)) = 0 := by omega
        rw [ih0 hm]
        simp
      · intro h
        have hm : movemask (t.map (fun b => b == 34 || b == 92)) ≠ 0 := by omega
        obtain ⟨htz, hlt⟩ := ih1 hm
        unfold trailingZeros
        rw [if_neg (by omega), if_neg (by omega)]
        refine ⟨?_, by simp only [List.length_cons]; omega⟩
        rw [show 2 * movemask (t.map (fun b => b == 34 || b == 92)) / 2 =
            movemask (t.map (fun b => b == 34 || b == 92)) by omega, htz]
        omega

theorem avx2Go_eq (slice : List Nat) : ∀ i : Nat,
    findSpecialCharAvx2Go slice i = i + findSpecialCharScalar (slice.drop i) := by
  have H : ∀ n i, slice.length - i ≤ n →
      findSpecialCharAvx2Go slice i = i + findSpecialCharScalar (slice.drop i) := by
    intro n
    induction n with
    | zero =>
      intro i hi
      unfold findSpecialCharAvx2Go
      rw [if_neg (by omega), if_neg (by omega), List.drop_eq_nil_of_le (by omega), scalar_nil]
      omega
    | succ n ih =>
      intro i hi
      unfold findSpecialCharAvx2Go
      by_cases h32 : i + 32 ≤ slice.length
      · rw [if_pos h32]
        have hdecomp : slice.drop i = (slice.drop i).take 32 ++ slice.drop (i + 32) := by
          have h1 : slice.drop (i + 32) = (slice.drop i).drop 32 := by
            rw [List.drop_drop]
          rw [h1, List.take_append_drop]
        have hlen : ((slice.drop i).take 32).length = 32 := by
          rw [List.length_take, List.length_drop]
          omega
        by_cases hm :
            movemask (((slice.drop i).take 32).map (fun b => b == 34 || b == 92)) = 0
        · rw [if_neg (by simpa using hm)]
          rw [ih (i + 32) (by omega)]
          conv_rhs => rw [hdecomp, scalar_append, if_pos ((movemask_tz _).1 hm), hlen]
          omega
        · rw [if_pos (by simpa using hm)]
          obtain ⟨htz, hlt⟩ := (movemask_tz _).2 hm
          rw [htz]
          conv_rhs => rw [hdecomp]
          rw [scalar_append, if_neg (by omega)]
      · rw [if_neg h32]
        by_cases hin : i < slice.length
        · rw [if_pos hin]
        · rw [if_neg hin, List.drop_eq_nil_of_le (by omega), scalar_nil]
          omega
  exact fun i => H (slice.length - i) i le_rfl

theorem sse2Go_eq (slice : List Nat) : ∀ i : Nat,
    findSpecialCharSse2Go slice i = i + findSpecialCharScalar (slice.drop i) := by
  have H : ∀ n i, slice.length - i ≤ n →
      findSpecialCharSse2Go slice i = i + findSpecialCharScalar (slice.drop i) := by
    intro n
    induction n with
    | zero =>
      intro i hi
      unfold findSpecialCharSse2Go
      rw [if_neg (by omega), if_neg (by omega), List.drop_eq_nil_of_le (by omega), scalar_nil]
      omega
    | succ n ih =>
      intro i hi
      unfold findSpecialCharSse2Go
      by_cases h16 : i + 16 ≤ slice.length
      · rw [if_pos h16]
        have hdecomp : slice.drop i = (slice.drop i).take 16 ++ slice.drop (i + 16) := by
          have h1 : slice.drop (i + 16) = (slice.drop i).drop 16 := by
            rw [List.drop_drop]
          rw [h1, List.take_append_drop]
        have hlen : ((slice.drop i).take 16).length = 16 := by
          rw [List.length_take, List.length_drop]
          omega
        by_cases hm :
            movemask (((slice.drop i).take 16).map (fun b => b == 34 || b == 92)) = 0
        · rw [if_neg (by simpa using hm)]
          rw [ih (i + 16) (by omega)]
          conv_rhs => rw [hdecomp, scalar_append, if_pos ((movemask_tz _).1 hm), hlen]
          omega
        · rw [if_pos (by simpa using hm)]
          obtain ⟨htz, hlt⟩ := (movemask_tz _).2 hm
          rw [htz]
          conv_rhs => rw [hdecomp]
          rw [scalar_append, if_neg (by omega)]
      · rw [if_neg h16]
        by_cases hin : i < slice.length
        · rw [if_pos hin]
        · rw [if_neg hin, List.drop_eq_nil_of_le (by omega), scalar_nil]
          omega
  exact fun i => H (slice.length - i) i le_rfl

/-- C6: for every byte slice and whatever the CPU-feature detection reports,
`find_next_special_character` returns the scalar back-end's answer — the
index of the first `"` or `\`, or the slice's length when there is none —
and the AVX2 and SSE2 lane loops each equal the scalar scan. -/
theorem find_special_backends_agree :
    ∀ (hasAvx2 hasSse2 : Bool) (slice : List Nat),
      findNextSpecialCharacter hasAvx2 hasSse2 slice = findSpecialCharScalar slice ∧
      findSpecialCharAvx2 slice = findSpecialCharScalar slice ∧
      findSpecialCharSse2 slice = findSpecialCharScalar slice := by
  intro a s slice
  have ha : findSpecialCharAvx2 slice = findSpecialCharScalar slice := by
    unfold findSpecialCharAvx2
    rw [avx2Go_eq slice 0]
    simp
  have hs : findSpecialCharSse2 slice = findSpecialCharScalar slice := by
    unfold findSpecialCharSse2
    rw [sse2Go_eq slice 0]
    simp
  refine ⟨?_, ha, hs⟩
  unfold findNextSpecialCharacter
  cases a <;> cases s <;> simp [ha, hs]

/-! ## Claim C7: JSON string escaping -/

/-- The per-byte escape mapping exactly as the claim describes it: quote and
backslash become two-character escapes, the five named control bytes their
short escapes, the other bytes in `0x00..=0x1F` a lowercase `\u00hh` escape,
and every other byte passes through unchanged. -/
def escapeByteSpec (b : Nat) : List Nat :=
  if b = 34 then [92, 34]
  else if b = 92 then [92, 92]
  else if b = 8 then [92, 98]
  else if b = 9 then [92, 116]
  else if b = 10 then [92, 110]
  else if b = 12 then [92, 102]
  else if b = 13 then [92, 114]
  else if b ≤ 0x1F then [92, 117, 48, 48, hexDigitChar (b / 16), hexDigitChar (b % 16)]
  else [b]

theorem escapeTable_high {b : Nat} (h : 128 ≤ b) : escapeTable b = 0 := by
  unfold escapeTable
  split_ifs <;> omega

set_option maxRecDepth 4000 in
theorem escapeTable_zero {b : Nat} (h : escapeTable b = 0) : escapeByteSpec b = [b] := by
  rcases Nat.lt_or_ge b 128 with hlt | hge
  · have key : ∀ b' ∈ Finset.range 128, escapeTable b' = 0 → escapeByteSpec b' = [b'] := by
      decide
    exact key b (Finset.mem_range.mpr hlt) h
  · unfold escapeByteSpec
    split_ifs <;> first | rfl | omega

set_option maxRecDepth 4000 in
theorem escapeTable_emit {b : Nat} (h : escapeTable b ≠ 0) :
    (if escapeTable b = 117 then
        [92, 117, 48, 48, hexDigitChar (b / 16), hexDigitChar (b % 16)]
      else [92, escapeTable b]) = escapeByteSpec b := by
  rcases Nat.lt_or_ge b 128 with hlt | hge
  · have key : ∀ b' ∈ Finset.range 128, escapeTable b' ≠ 0 →
        (if escapeTable b' = 117 then
            [92, 117, 48, 48, hexDigitChar (b' / 16), hexDigitChar (b' % 16)]
          else [92, escapeTable b']) = escapeByteSpec b' := by
      decide
    exact key b (Finset.mem_range.mpr hlt) h
  · exact absurd (escapeTable_high hge) h

theorem listSlice_self (l : List Nat) (i : Nat) : listSlice l i i = [] := by
  unfold listSlice
  apply List.drop_eq_nil_of_le
  simp

theorem listSlice_extend {l : List Nat} {i start : Nat} {b : Nat}
    (hb : l[i]? = some b) (hs : start ≤ i) :
    listSlice l start (i + 1) = listSlice l start i ++ [b] := by
  obtain ⟨hlt, he⟩ := List.getElem?_eq_some_iff.mp hb
  unfold listSlice
  rw [List.take_succ, hb]
  rw [List.drop_append_of_le_length]
  · rfl
  · rw [List.length_take]
    omega

theorem listSlice_high {l : List Nat} {start i : Nat} (h : l.length ≤ i) :
    listSlice l start i = listSlice l start l.length := by
  unfold listSlice
  rw [List.take_of_length_le h, List.take_of_length_le le_rfl]

theorem getD_eq_get {l : List Nat} {i : Nat} (h : i < l.length) : l.getD i 0 = l[i] := by
  rw [List.getD_eq_getElem?_getD, List.getElem?_eq_getElem h]
  rfl

theorem escLoop_spec : ∀ (f : Nat) (all : List Nat) (i start : Nat) (out : List Nat),
    all.length - i < f → start ≤ i →
    (∀ x ∈ listSlice all start i, escapeTable x = 0) →
    escLoop all f i start out =
      out ++ listSlice all start i ++ (all.drop i).flatMap escapeByteSpec := by
  intro f
  induction f with
  | zero => intro all i start out hn; omega
  | succ n ih =>
    intro all i start out hn hs hzero
    unfold escLoop
    by_cases hlt : i < all.length
    · rw [if_pos hlt]
      have hb : all[i]? = some (all.getD i 0) := by
        rw [List.getElem?_eq_getElem hlt, getD_eq_get hlt]
      have hdrop : all.drop i = all.getD i 0 :: all.drop (i + 1) := by
        rw [List.drop_eq_getElem_cons hlt, getD_eq_get hlt]
      by_cases hz : escapeTable (all.getD i 0) = 0
      · rw [if_pos hz]
        rw [ih all (i + 1) start out (by omega) (by omega) ?_]
        · rw [listSlice_extend hb hs, hdrop, List.flatMap_cons, escapeTable_zero hz]
          simp only [List.append_assoc, List.singleton_append, List.cons_append,
            List.nil_append]
        · intro x hx
          rw [listSlice_extend hb hs] at hx
          rcases List.mem_append.mp hx with h1 | h1
          · exact hzero x h1
          · simp only [List.mem_singleton] at h1
            rw [h1]
            exact hz
      · rw [if_neg hz]
        rw [ih all (i + 1) (i + 1) _ (by omega) le_rfl (by simp [listSlice_self])]
        rw [listSlice_self, hdrop]
        have hout1 : (if start < i then out ++ listSlice all start i else out) =
            out ++ listSlice all start i := by
          by_cases hsi : start < i
          · rw [if_pos hsi]
          · rw [if_neg hsi]
            have hei : start = i := by omega
            rw [hei, listSlice_self]
            simp
        rw [hout1, escapeTable_emit hz, List.flatMap_cons]
        simp only [List.append_nil, List.append_assoc]
    · have hge : all.length ≤ i := by omega
      rw [if_neg hlt, List.drop_eq_nil_of_le hge, listSlice_high hge]
      by_cases h : start < all.length
      · rw [if_pos h]
        simp
      · rw [if_neg h]
        have hnil : listSlice all start all.length = [] := by
          unfold listSlice
          rw [List.take_of_length_le le_rfl]
          exact List.drop_eq_nil_of_le (by omega)
        rw [hnil]
        simp

/-- C7: `escape_str` writes its input surrounded by double quotes with each
byte escaped exactly as `escapeByteSpec` describes — `"` and `\` as
two-character escapes, the named control bytes as short escapes, the other
bytes below 0x20 as lowercase `\u00hh`, all remaining bytes unchanged; in
particular the Value string `a`, quote, newline, 0x01, `b` serializes to the
JSON text with bytes `" a \" \n \u0001 b "`. -/
theorem escape_str_per_byte :
    (∀ s : List Nat, escapeStr s = 34 :: (s.flatMap escapeByteSpec ++ [34])) ∧
      toStringValue (.string [97, 34, 10, 1, 98]) =
        [34, 97, 92, 34, 92, 110, 92, 117, 48, 48, 48, 49, 98, 34] := by
  constructor
  · intro s
    unfold escapeStr
    rw [escLoop_spec (s.length + 1) s 0 0 [34] (by omega) le_rfl (by simp [listSlice_self])]
    rw [listSlice_self]
    simp
  · decide

/-! ## Claim C8: serializing `Fragment::F64` -/

/-- C8: serializing a float emits ryu's shortest round-trip decimal when the
value is finite (`ryuFormatFinite` models the external ryu crate per the
spec) and the text `null` when it is NaN or an infinity; in particular
`to_string(Value::Number(F64(NaN)))` is `"null"`. -/
theorem f64_fragment_serialization :
    (∀ x : Float64, x.isFinite = false →
      toStringValue (.number (.f64 x)) = [110, 117, 108, 108]) ∧
    (∀ x : Float64, x.isFinite = true →
      toStringValue (.number (.f64 x)) = ryuFormatFinite x) ∧
    toStringValue (.number (.f64 .nan)) = [110, 117, 108, 108] ∧
    toStringValue (.number (.f64 (.inf false))) = [110, 117, 108, 108] ∧
    toStringValue (.number (.f64 (.inf true))) = [110, 117, 108, 108] := by
  refine ⟨?_, ?_, by decide, by decide, by decide⟩
  · intro x hx
    show writerRun (wcostV (.number (.f64 x)) + 1) _ _ _ = _
    have h1 : wcostV (.number (.f64 x)) = 1 := rfl
    rw [h1]
    show writerRun 1 none [] ([] ++ if x.isFinite then ryuFormatFinite x else nullBytes) = _
    rw [hx]
    rfl
  · intro x hx
    show writerRun (wcostV (.number (.f64 x)) + 1) _ _ _ = _
    have h1 : wcostV (.number (.f64 x)) = 1 := rfl
    rw [h1]
    show writerRun 1 none [] ([] ++ if x.isFinite then ryuFormatFinite x else nullBytes) = _
    rw [hx]
    simp [writerRun]

/-- Closed witness for C8 at a finite input. -/
theorem f64_fragment_serialization_witness :
    (Float64.posZero.isFinite = true ∧
      toStringValue (.number (.f64 Float64.posZero)) = ryuFormatFinite Float64.posZero) ∧
    (Float64.inf false).isFinite = false ∧
      toStringValue (.number (.f64 (.inf false))) = [110, 117, 108, 108] :=
  ⟨⟨by decide, f64_fragment_serialization.2.1 Float64.posZero (by decide)⟩,
    by decide, f64_fragment_serialization.1 (.inf false) (by decide)⟩

/-! ## Claim C4: exponent overflow handling -/

/-- A byte list whose head (if any) cannot continue a number token. -/
def numTermByte (rest : List Nat) : Bool :=
  match rest with
  | [] => true
  | b :: _ => !isDigitByte b && b != 46 && b != 101 && b != 69

theorem dropDigits_spec : ∀ ds rest : List Nat, (∀ b ∈ ds, isDigitByte b = true) →
    numTermByte rest = true → dropDigits (ds ++ rest) = rest
  | [], rest, _, hrest => by
    cases rest with
    | nil => rfl
    | cons b t =>
      simp only [numTermByte, Bool.and_eq_true, Bool.not_eq_true'] at hrest
      simp [dropDigits, hrest.1.1.1]
  | d :: ds, rest, hds, hrest => by
    have hd : isDigitByte d = true := hds d (by simp)
    simp only [List.cons_append, dropDigits, hd, if_true]
    exact dropDigits_spec ds rest (fun b hb => hds b (by simp [hb])) hrest

/-- C4: when the exponent accumulator would overflow `i32`, the parse fails
exactly when the significand is nonzero and the exponent sign is positive;
otherwise the cold path drains every remaining exponent digit and returns a
zero float (`0.0`, or `-0.0` for a negative number — equal to `0.0` as an
IEEE value), never an error and never an infinity.  The digit loop of
`parse_exponent` enters that cold path exactly on the overflow check, and
the concrete documents behave accordingly. -/
theorem exponent_overflow_behavior :
    (∀ (nonneg : Bool) (sig : Nat) (pos : Bool) (rem : List Nat),
      parseExponentOverflow nonneg sig pos rem = .error () ↔ (sig ≠ 0 ∧ pos = true)) ∧
    (∀ (nonneg : Bool) (sig : Nat) (pos : Bool) (ds rest : List Nat),
      ¬(sig ≠ 0 ∧ pos = true) → (∀ b ∈ ds, isDigitByte b = true) →
      numTermByte rest = true →
      ∃ z : Float64, parseExponentOverflow nonneg sig pos (ds ++ rest) = .ok (z, rest) ∧
        z.isZero = true ∧
        z = (if nonneg then Float64.posZero else Float64.negZero)) ∧
    (∀ (nonneg : Bool) (sig : Nat) (startExp : Int) (pos : Bool) (exp : Nat)
      (b : Nat) (t : List Nat),
      isDigitByte b = true → overflowI32 exp (b - 48) = true →
      parseExpLoop nonneg sig startExp pos exp (b :: t) =
        parseExponentOverflow nonneg sig pos t) ∧
    fromStrValue [49, 101, 50, 49, 52, 55, 52, 56, 51, 54, 52, 56] = .error () ∧
    fromStrValue [49, 101, 45, 50, 49, 52, 55, 52, 56, 51, 54, 52, 56] =
      .ok (.number (.f64 Float64.posZero)) ∧
    fromStrValue [45, 49, 101, 45, 50, 49, 52, 55, 52, 56, 51, 54, 52, 56] =
      .ok (.number (.f64 Float64.negZero)) ∧
    fromStrValue [48, 101, 50, 49, 52, 55, 52, 56, 51, 54, 52, 56] =
      .ok (.number (.f64 Float64.posZero)) := by
  refine ⟨?_, ?_, ?_, by decide, by decide, by decide, by decide⟩
  · intro nonneg sig pos rem
    unfold parseExponentOverflow
    by_cases h : sig ≠ 0 ∧ pos = true
    · rw [if_pos (by simp [h.1, h.2])]
      simp [h]
    · rw [if_neg (by
        intro hb
        simp only [Bool.and_eq_true, decide_eq_true_eq, ne_eq] at hb
        exact h ⟨hb.1, hb.2⟩)]
      constructor
      · intro he
        exact absurd he (by simp)
      · intro hc
        exact absurd hc h
  · intro nonneg sig pos ds rest h hds hrest
    refine ⟨if nonneg then Float64.posZero else Float64.negZero, ?_, ?_, rfl⟩
    · unfold parseExponentOverflow
      rw [if_neg (by
        intro hb
        simp only [Bool.and_eq_true, decide_eq_true_eq, ne_eq] at hb
        exact h ⟨hb.1, hb.2⟩)]
      rw [dropDigits_spec ds rest hds hrest]
    · by_cases hn : nonneg <;> simp [hn, Float64.posZero, Float64.negZero, Float64.isZero]
  · intro nonneg sig startExp pos exp b t hb hov
    unfold parseExpLoop
    rw [if_pos hb, if_pos hov]

/-- Closed witness for C4's quantified clauses at concrete inputs. -/
theorem exponent_overflow_behavior_witness :
    (parseExponentOverflow true 1 true [] = .error () ↔ ((1 : Nat) ≠ 0 ∧ True = True)) ∧
      (∃ z : Float64, parseExponentOverflow true 0 true [53, 44] = .ok (z, [44]) ∧
        z.isZero = true ∧ z = (if true then Float64.posZero else Float64.negZero)) ∧
      parseExpLoop true 1 0 true 214748364 [56, 57] =
        parseExponentOverflow true 1 true [57] := by
  refine ⟨?_, ?_, ?_⟩
  · have h := exponent_overflow_behavior.1 true 1 true []
    simpa using h
  · have h := exponent_overflow_behavior.2.1 true 0 true [53] [44] (by simp)
      (by decide) (by decide)
    simpa using h
  · exact exponent_overflow_behavior.2.2.1 true 1 0 true 214748364 56 [57]
      (by decide) (by decide)

/-! ## Claim C5: surrogate pairs in `\u` escapes -/

theorem parseUnicodeEscape_ok (buffer rem : List Nat) (n1 : Nat) (r1 : List Nat)
    (h : decodeHexEscape rem = .ok (n1, r1)) :
    parseUnicodeEscape buffer rem =
      if 0xDC00 ≤ n1 && n1 ≤ 0xDFFF then .error ()
      else if 0xD800 ≤ n1 && n1 ≤ 0xDBFF then parseSurrogatePair buffer n1 r1
      else if charValid n1 then .ok (buffer ++ utf8Encode n1, r1)
      else .error () := by
  unfold parseUnicodeEscape
  rw [h]

theorem parseSurrogatePair_ok (buffer : List Nat) (n1 : Nat) (r2 : List Nat)
    (n2 : Nat) (r3 : List Nat) (h : decodeHexEscape r2 = .ok (n2, r3)) :
    parseSurrogatePair buffer n1 (92 :: 117 :: r2) =
      if n2 < 0xDC00 || 0xDFFF < n2 then .error ()
      else if charValid (((n1 - 0xD800) <<< 10 ||| (n2 - 0xDC00)) + 0x10000) then
        .ok (buffer ++ utf8Encode (((n1 - 0xD800) <<< 10 ||| (n2 - 0xDC00)) + 0x10000), r3)
      else .error () := by
  simp only [parseSurrogatePair, ne_eq, not_true_eq_false, if_false, h]

theorem pair_charValid (n1 n2 : Nat) (h1lo : 0xD800 ≤ n1) (h1hi : n1 ≤ 0xDBFF)
    (h2lo : 0xDC00 ≤ n2) (h2hi : n2 ≤ 0xDFFF) :
    charValid (((n1 - 0xD800) <<< 10 ||| (n2 - 0xDC00)) + 0x10000) = true := by
  have hx : n2 - 0xDC00 < 2 ^ 10 := by omega
  have hy : n1 - 0xD800 < 2 ^ 10 := by omega
  have hor : (n1 - 0xD800) <<< 10 ||| (n2 - 0xDC00) < 2 ^ (10 + 10) :=
    Nat.append_lt hx hy
  simp only [charValid, Bool.and_eq_true, decide_eq_true_eq, Bool.not_eq_true',
    Bool.and_eq_false_iff, decide_eq_false_iff_not, not_le]
  omega

/-- C5: a `\u` escape whose first code unit is a low surrogate
(`0xDC00..=0xDFFF`) fails; a first code unit that is a high surrogate
(`0xD800..=0xDBFF`) demands an immediately following `\uXXXX` escape whose
unit is a low surrogate, combines the two as
`((n1 - 0xD800) << 10 | (n2 - 0xDC00)) + 0x10000` and appends that scalar's
UTF-8 encoding to the scratch buffer; a second unit outside the low range
fails, and so does any continuation that is not a `\u` escape.  Concretely,
`"😀"` parses to the four UTF-8 bytes of U+1F600 and each lone
surrogate document fails. -/
theorem surrogate_pair_handling :
    (∀ (buffer rem : List Nat) (n1 : Nat) (r1 : List Nat),
      decodeHexEscape rem = .ok (n1, r1) → 0xDC00 ≤ n1 → n1 ≤ 0xDFFF →
      parseUnicodeEscape buffer rem = .error ()) ∧
    (∀ (buffer rem : List Nat) (n1 : Nat) (r2 : List Nat) (n2 : Nat) (r3 : List Nat),
      decodeHexEscape rem = .ok (n1, 92 :: 117 :: r2) → 0xD800 ≤ n1 → n1 ≤ 0xDBFF →
      decodeHexEscape r2 = .ok (n2, r3) → 0xDC00 ≤ n2 → n2 ≤ 0xDFFF →
      parseUnicodeEscape buffer rem =
        .ok (buffer ++ utf8Encode (((n1 - 0xD800) <<< 10 ||| (n2 - 0xDC00)) + 0x10000), r3)) ∧
    (∀ (buffer rem : List Nat) (n1 : Nat) (r2 : List Nat) (n2 : Nat) (r3 : List Nat),
      decodeHexEscape rem = .ok (n1, 92 :: 117 :: r2) → 0xD800 ≤ n1 → n1 ≤ 0xDBFF →
      decodeHexEscape r2 = .ok (n2, r3) → (n2 < 0xDC00 ∨ 0xDFFF < n2) →
      parseUnicodeEscape buffer rem = .error ()) ∧
    (∀ (buffer : List Nat) (n1 : Nat) (r1 : List Nat),
      (∀ r2 : List Nat, r1 ≠ 92 :: 117 :: r2) →
      parseSurrogatePair buffer n1 r1 = .error ()) ∧
    fromStrString [34, 92, 117, 68, 56, 51, 68, 92, 117, 68, 69, 48, 48, 34] =
      .ok [240, 159, 152, 128] ∧
    fromStrString [34, 92, 117, 68, 56, 48, 48, 34] = .error () ∧
    fromStrString [34, 92, 117, 68, 67, 48, 48, 34] = .error () := by
  refine ⟨?_, ?_, ?_, ?_, by decide, by decide, by decide⟩
  · intro buffer rem n1 r1 hdec hlo hhi
    rw [parseUnicodeEscape_ok buffer rem n1 r1 hdec]
    rw [if_pos (by simp only [Bool.and_eq_true, decide_eq_true_eq]; exact ⟨hlo, hhi⟩)]
  · intro buffer rem n1 r2 n2 r3 hdec h1lo h1hi hdec2 h2lo h2hi
    rw [parseUnicodeEscape_ok buffer rem n1 (92 :: 117 :: r2) hdec]
    rw [if_neg (by simp only [Bool.and_eq_true, decide_eq_true_eq, not_and, not_le]; omega)]
    rw [if_pos (by simp only [Bool.and_eq_true, decide_eq_true_eq]; exact ⟨h1lo, h1hi⟩)]
    rw [parseSurrogatePair_ok buffer n1 r2 n2 r3 hdec2]
    rw [if_neg (by simp only [Bool.or_eq_true, decide_eq_true_eq, not_or, not_lt]; omega)]
    rw [if_pos (pair_charValid n1 n2 h1lo h1hi h2lo h2hi)]
  · intro buffer rem n1 r2 n2 r3 hdec h1lo h1hi hdec2 hbad
    rw [parseUnicodeEscape_ok buffer rem n1 (92 :: 117 :: r2) hdec]
    rw [if_neg (by simp only [Bool.and_eq_true, decide_eq_true_eq, not_and, not_le]; omega)]
    rw [if_pos (by simp only [Bool.and_eq_true, decide_eq_true_eq]; exact ⟨h1lo, h1hi⟩)]
    rw [parseSurrogatePair_ok buffer n1 r2 n2 r3 hdec2]
    rw [if_pos (by simp only [Bool.or_eq_true, decide_eq_true_eq]; omega)]
  · intro buffer n1 r1 hshape
    cases r1 with
    | nil => rfl
    | cons a t =>
      by_cases ha : a = 92
      · subst ha
        cases t with
        | nil => simp [parseSurrogatePair]
        | cons u t2 =>
          by_cases hu : u = 117
          · subst hu
            exact absurd rfl (hshape t2)
          · simp [parseSurrogatePair, hu]
      · simp [parseSurrogatePair, ha]

/-- Closed witness for C5's quantified clauses at concrete inputs. -/
theorem surrogate_pair_handling_witness :
    parseUnicodeEscape [] [68, 67, 48, 48, 34] = .error () ∧
    parseUnicodeEscape []
        [68, 56, 51, 68, 92, 117, 68, 69, 48, 48, 34] =
      .ok ([240, 159, 152, 128], [34]) ∧
    parseUnicodeEscape []
        [68, 56, 51, 68, 92, 117, 48, 48, 52, 49, 34] = .error () ∧
    parseSurrogatePair [] 0xD83D [34] = .error () := by
  refine ⟨?_, ?_, ?_, ?_⟩
  · exact surrogate_pair_handling.1 [] [68, 67, 48, 48, 34] 0xDC00 [34]
      (by decide) (by decide) (by decide)
  · have h := surrogate_pair_handling.2.1 [] [68, 56, 51, 68, 92, 117, 68, 69, 48, 48, 34]
      0xD83D [68, 69, 48, 48, 34] 0xDE00 [34]
      (by decide) (by decide) (by decide) (by decide) (by decide) (by decide)
    rw [h]
    decide
  · exact surrogate_pair_handling.2.2.1 [] [68, 56, 51, 68, 92, 117, 48, 48, 52, 49, 34]
      0xD83D [48, 48, 52, 49, 34] 0x41 [34]
      (by decide) (by decide) (by decide) (by decide) (Or.inl (by decide))
  · exact surrogate_pair_handling.2.2.2.1 [] 0xD83D [34]
      (fun r2 => by simp)

/-! ## Claim C3: `u64` overflow switches to the long-integer float path -/

theorem parseLongInteger_drain : ∀ (ds : List Nat) (nonneg : Bool) (sig : Nat)
    (exp : Int) (rest : List Nat),
    (∀ b ∈ ds, isDigitByte b = true) → numTermByte rest = true →
    parseLongInteger nonneg sig exp (ds ++ rest) =
      (f64FromParts nonneg sig (exp + ds.length)).map (fun f => (f, rest))
  | [], nonneg, sig, exp, rest, _, hrest => by
    cases rest with
    | nil => simp [parseLongInteger]
    | cons b t =>
      simp only [numTermByte, Bool.and_eq_true, Bool.not_eq_true'] at hrest
      obtain ⟨⟨⟨hd, h46⟩, h101⟩, h69⟩ := hrest
      simp only [List.nil_append, parseLongInteger, hd, Bool.false_eq_true, if_false]
      rw [if_neg (by simpa using h46)]
      rw [if_neg (by
        rw [not_or]
        exact ⟨by simpa using h101, by simpa using h69⟩)]
      simp
  | d :: ds, nonneg, sig, exp, rest, hds, hrest => by
    have hd : isDigitByte d = true := hds d (by simp)
    have ih := parseLongInteger_drain ds nonneg sig (exp + 1) rest
      (fun b hb => hds b (by simp [hb])) hrest
    simp only [List.cons_append, parseLongInteger, hd, eq_self_iff_true, if_true,
      List.append_eq]
    rw [ih]
    have hcast : exp + 1 + (ds.length : Int) = exp + (((d :: ds).length : Nat) : Int) := by
      simp only [List.length_cons]
      push_cast
      ring
    rw [hcast]

set_option maxRecDepth 20000 in
/-- C3 counterexample: switching to the long-integer path does not always
produce a Float event.  A 310-digit integer (`2` followed by 309 zeros)
overflows `u64`, enters `parse_long_integer`, and then fails because
`f64_from_parts` overflows `f64` to infinity: `from_str::<Value>` returns an
error, and the long-integer continuation reached after the overflow switch
(`significand 2e18`, 290 zeros left) itself errors. -/
theorem long_overflow_not_always_float_cex :
    fromStrValue (50 :: List.replicate 309 48) = .error () ∧
    parseLongInteger true 2000000000000000000 1 (List.replicate 290 48) = .error () := by
  constructor
  · decide
  · decide

set_option maxRecDepth 20000 in
/-- C3 amended: on `u64` overflow the integer loop switches to
`parse_long_integer`, which consumes the remaining digits while incrementing
the decimal exponent and finishes through `f64_from_parts`; the result is a
Float event when `f64_from_parts` is finite and a parse error when it
overflows to infinity.  `from_str::<Value>("18446744073709551616")` is
`Value::Number(F64(1.8446744073709552e19))`: the parsed float is exactly
`2^64` and ryu prints it as `1.8446744073709552e19`. -/
theorem long_overflow_float_amended :
    (∀ (nonneg : Bool) (res b : Nat) (t : List Nat),
      isDigitByte b = true → overflowU64 res (b - 48) = true →
      parseIntLoop nonneg res (b :: t) =
        (parseLongInteger nonneg res 1 t).map (fun p => (.float p.1, p.2))) ∧
    (∀ (nonneg : Bool) (sig : Nat) (exp : Int) (ds rest : List Nat),
      (∀ b ∈ ds, isDigitByte b = true) → numTermByte rest = true →
      parseLongInteger nonneg sig exp (ds ++ rest) =
        (f64FromParts nonneg sig (exp + ds.length)).map (fun f => (f, rest))) ∧
    fromStrValue [49, 56, 52, 52, 54, 55, 52, 52, 48, 55, 51, 55, 48, 57, 53,
        53, 49, 54, 49, 54] =
      .ok (.number (.f64 (.finite false 4503599627370496 12))) ∧
    (4503599627370496 : Nat) * 2 ^ 12 = 18446744073709551616 ∧
    ryuFormatFinite (.finite false 4503599627370496 12) =
      [49, 46, 56, 52, 52, 54, 55, 52, 52, 48, 55, 51, 55, 48, 57, 53, 53, 50,
        101, 49, 57] := by
  refine ⟨?_, fun nonneg sig exp ds rest hds hrest =>
    parseLongInteger_drain ds nonneg sig exp rest hds hrest, ?_, by decide, ?_⟩
  · intro nonneg res b t hb hov
    simp only [parseIntLoop, hb, hov, eq_self_iff_true, if_true]
  · decide
  · decide

/-- Closed witness for C3's quantified clauses at concrete inputs. -/
theorem long_overflow_float_amended_witness :
    parseIntLoop true 1844674407370955161 [54, 44] =
      (parseLongInteger true 1844674407370955161 1 [44]).map
        (fun p => (.float p.1, p.2)) ∧
    parseLongInteger true 7 0 [53, 44] =
      (f64FromParts true 7 1).map (fun f => (f, [44])) := by
  constructor
  · exact long_overflow_float_amended.1 true 1844674407370955161 54 [44]
      (by decide) (by decide)
  · have h := long_overflow_float_amended.2.1 true 7 0 [53] [44]
      (by decide) (by decide)
    simpa using h

/-! ## Claim C1: round-trip on canonical texts

The development below proves the amended parse-after-print identity: the
iterative writer equals the reference printer (`toString_print`), the lexer
inverts each printed fragment, and the driver loop rebuilds the exact value
tree using exact fuel accounting (`drive_print_val`). -/

/-- The quoted, per-byte-escaped shape of `escape_str` (the C7 core fact,
restated as a reusable helper). -/
theorem escapeStr_flatMap (s : List Nat) :
    escapeStr s = 34 :: (s.flatMap escapeByteSpec ++ [34]) := by
  unfold escapeStr
  rw [escLoop_spec (s.length + 1) s 0 0 [34] (by omega) le_rfl (by simp [listSlice_self])]
  rw [listSlice_self]
  simp

/-- A byte list whose head (if any) is a separator the driver accepts after
a completed value: comma or a closing bracket. -/
def sepOk : List Nat → Bool
  | [] => true
  | b :: _ => b == 44 || b == 93 || b == 125

theorem sepOk_numTerm {r : List Nat} (h : sepOk r = true) : numTermByte r = true := by
  cases r with
  | nil => rfl
  | cons b t =>
    simp only [sepOk, Bool.or_eq_true, beq_iff_eq] at h
    simp only [numTermByte, isDigitByte, Bool.and_eq_true, Bool.not_eq_true',
      Bool.and_eq_false_iff, decide_eq_false_iff_not, not_le, bne_iff_ne, ne_eq]
    omega

/-! ### The writer loop equals the reference printer -/

mutual

/-- Exact number of writer-loop iterations from the fragment phase of a
value until the post-element phase with the same stack. -/
def stepV : Value → Nat
  | .array [] => 1
  | .array (x :: xs) => 2 + stepV x + stepL xs
  | .object [] => 1
  | .object (p :: ps) => 2 + stepV p.2 + stepP ps
  | _ => 1

def stepL : List Value → Nat
  | [] => 0
  | x :: t => 1 + stepV x + stepL t

def stepP : List (List Nat × Value) → Nat
  | [] => 0
  | p :: t => 1 + stepV p.2 + stepP t

end

mutual

theorem stepV_le_wcostV : ∀ v : Value, stepV v ≤ wcostV v
  | .null | .bool _ | .string _ => by simp [stepV, wcostV]
  | .number n => by cases n <;> simp [stepV, wcostV]
  | .array [] => by simp [stepV, wcostV, wcostL]
  | .array (x :: xs) => by
    have h1 := stepV_le_wcostV x
    have h2 := stepL_le_wcostL xs
    simp only [stepV, wcostV, wcostL]
    omega
  | .object [] => by simp [stepV, wcostV, wcostP]
  | .object (p :: ps) => by
    have h1 := stepV_le_wcostV p.2
    have h2 := stepP_le_wcostP ps
    simp only [stepV, wcostV, wcostP]
    omega

theorem stepL_le_wcostL : ∀ l : List Value, stepL l ≤ wcostL l
  | [] => le_refl _
  | x :: t => by
    have h1 := stepV_le_wcostV x
    have h2 := stepL_le_wcostL t
    simp only [stepL, wcostL]
    omega

theorem stepP_le_wcostP : ∀ l : List (List Nat × Value), stepP l ≤ wcostP l
  | [] => le_refl _
  | p :: t => by
    have h1 := stepV_le_wcostV p.2
    have h2 := stepP_le_wcostP t
    simp only [stepP, wcostP]
    omega

end

theorem writerRun_none_nil : ∀ (f : Nat) (out : List Nat),
    writerRun f none [] out = out
  | 0, _ => rfl
  | _ + 1, _ => rfl

mutual

theorem wRunV : ∀ (v : Value) (f : Nat) (stack : List WLayer) (out : List Nat),
    writerRun (stepV v + f) (some v) stack out = writerRun f none stack (out ++ printValue v)
  | .null, f, stack, out => by
    show writerRun (1 + f) _ _ _ = _
    rw [Nat.add_comm]
    simp [writerRun, printValue]
  | .bool b, f, stack, out => by
    show writerRun (1 + f) _ _ _ = _
    rw [Nat.add_comm]
    simp [writerRun, printValue]
  | .string s, f, stack, out => by
    show writerRun (1 + f) _ _ _ = _
    rw [Nat.add_comm]
    simp [writerRun, printValue]
  | .number (.u64 n), f, stack, out => by
    show writerRun (1 + f) _ _ _ = _
    rw [Nat.add_comm]
    simp [writerRun, printValue]
  | .number (.i64 n), f, stack, out => by
    show writerRun (1 + f) _ _ _ = _
    rw [Nat.add_comm]
    simp [writerRun, printValue]
  | .number (.f64 x), f, stack, out => by
    show writerRun (1 + f) _ _ _ = _
    rw [Nat.add_comm]
    simp [writerRun, printValue]
  | .array [], f, stack, out => by
    show writerRun (1 + f) _ _ _ = _
    rw [Nat.add_comm]
    simp [writerRun, printValue]
  | .array (x :: xs), f, stack, out => by
    rw [show stepV (.array (x :: xs)) + f = ((stepV x + (stepL xs + 1 + f)) + 1) from by
      simp only [stepV]; omega]
    simp only [writerRun]
    rw [wRunV x (stepL xs + 1 + f) (.seq xs :: stack) (out ++ [91])]
    rw [wRunSeq xs f stack (out ++ [91] ++ printValue x)]
    simp [printValue]
  | .object [], f, stack, out => by
    show writerRun (1 + f) _ _ _ = _
    rw [Nat.add_comm]
    simp [writerRun, printValue]
  | .object (p :: ps), f, stack, out => by
    rw [show stepV (.object (p :: ps)) + f = ((stepV p.2 + (stepP ps + 1 + f)) + 1) from by
      simp only [stepV]; omega]
    simp only [writerRun]
    rw [wRunV p.2 (stepP ps + 1 + f) (.map ps :: stack) (out ++ [123] ++ escapeStr p.1 ++ [58])]
    rw [wRunMap ps f stack (out ++ [123] ++ escapeStr p.1 ++ [58] ++ printValue p.2)]
    simp [printValue]

theorem wRunSeq : ∀ (xs : List Value) (f : Nat) (stack : List WLayer) (out : List Nat),
    writerRun (stepL xs + 1 + f) none (.seq xs :: stack) out =
      writerRun f none stack (out ++ printSeqTail xs ++ [93])
  | [], f, stack, out => by
    show writerRun (0 + 1 + f) _ _ _ = _
    rw [show 0 + 1 + f = f + 1 from by omega]
    simp [writerRun, printSeqTail]
  | x :: xs, f, stack, out => by
    rw [show stepL (x :: xs) + 1 + f = ((stepV x + (stepL xs + 1 + f)) + 1) from by
      simp only [stepL]; omega]
    simp only [writerRun]
    rw [wRunV x (stepL xs + 1 + f) (.seq xs :: stack) (out ++ [44])]
    rw [wRunSeq xs f stack (out ++ [44] ++ printValue x)]
    simp [printSeqTail]

theorem wRunMap : ∀ (ps : List (List Nat × Value)) (f : Nat) (stack : List WLayer)
    (out : List Nat),
    writerRun (stepP ps + 1 + f) none (.map ps :: stack) out =
      writerRun f none stack (out ++ printMapTail ps ++ [125])
  | [], f, stack, out => by
    show writerRun (0 + 1 + f) _ _ _ = _
    rw [show 0 + 1 + f = f + 1 from by omega]
    simp [writerRun, printMapTail]
  | p :: ps, f, stack, out => by
    rw [show stepP (p :: ps) + 1 + f = ((stepV p.2 + (stepP ps + 1 + f)) + 1) from by
      simp only [stepP]; omega]
    simp only [writerRun]
    rw [wRunV p.2 (stepP ps + 1 + f) (.map ps :: stack) (out ++ [44] ++ escapeStr p.1 ++ [58])]
    rw [wRunMap ps f stack (out ++ [44] ++ escapeStr p.1 ++ [58] ++ printValue p.2)]
    simp [printMapTail]

end

/-- The iterative writer of ser.rs renders exactly the reference printing. -/
theorem toString_print (v : Value) : toStringValue v = printValue v := by
  have hle : stepV v ≤ wcostV v := stepV_le_wcostV v
  have hk : wcostV v + 1 = stepV v + (wcostV v + 1 - stepV v) := by omega
  unfold toStringValue
  rw [hk, wRunV v (wcostV v + 1 - stepV v) [] []]
  rw [writerRun_none_nil]
  simp

/-! ### Lexer inversion: integers -/

theorem overflowU64_iff (a b : Nat) (hb : b ≤ 9) :
    overflowU64 a b = true ↔ u64Max < 10 * a + b := by
  simp only [overflowU64, u64Max, Bool.and_eq_true, Bool.or_eq_true, decide_eq_true_eq]
  omega

theorem foldl_digits_ge : ∀ (l : List Nat) (a : Nat),
    a ≤ List.foldl (fun r d => r * 10 + (d - 48)) a l
  | [], _ => le_refl _
  | d :: t, a => by
    have h := foldl_digits_ge t (a * 10 + (d - 48))
    simp only [List.foldl_cons]
    omega

theorem parseIntLoop_digits : ∀ (ds : List Nat) (nonneg : Bool) (res : Nat)
    (rest : List Nat),
    (∀ d ∈ ds, isDigitByte d = true) → numTermByte rest = true →
    List.foldl (fun r d => r * 10 + (d - 48)) res ds ≤ u64Max →
    parseIntLoop nonneg res (ds ++ rest) =
      parseNumber nonneg (List.foldl (fun r d => r * 10 + (d - 48)) res ds) rest
  | [], nonneg, res, rest, _, hrest, _ => by
    cases rest with
    | nil => rfl
    | cons b t =>
      simp only [numTermByte, Bool.and_eq_true, Bool.not_eq_true'] at hrest
      simp only [List.nil_append, parseIntLoop, hrest.1.1.1, Bool.false_eq_true, if_false,
        List.foldl_nil]
  | d :: ds, nonneg, res, rest, hds, hrest, hbound => by
    have hd : isDigitByte d = true := hds d (by simp)
    have hd9 : d - 48 ≤ 9 := by
      simp only [isDigitByte, Bool.and_eq_true, decide_eq_true_eq] at hd
      omega
    have hfold : List.foldl (fun r d => r * 10 + (d - 48)) (res * 10 + (d - 48)) ds ≤ u64Max := by
      simpa using hbound
    have hsmall : res * 10 + (d - 48) ≤ u64Max :=
      le_trans (foldl_digits_ge ds _) hfold
    have hov : overflowU64 res (d - 48) = false := by
      rw [Bool.eq_false_iff]
      intro hcontra
      rw [overflowU64_iff res (d - 48) hd9] at hcontra
      omega
    simp only [List.cons_append, parseIntLoop, hd, eq_self_iff_true, if_true, hov,
      Bool.false_eq_true, if_false, List.foldl_cons]
    exact parseIntLoop_digits ds nonneg (res * 10 + (d - 48)) rest
      (fun x hx => hds x (by simp [hx])) hrest hfold

theorem parseNumber_term (nonneg : Bool) (sig : Nat) (rest : List Nat)
    (h : numTermByte rest = true) :
    parseNumber nonneg sig rest =
      .ok (if nonneg then .nonnegative sig
           else if 0 < wrapNegI64 sig then .float (Float64.ofNat sig).neg
           else .negative (wrapNegI64 sig), rest) := by
  cases rest with
  | nil => rfl
  | cons b t =>
    simp only [numTermByte, Bool.and_eq_true, Bool.not_eq_true', bne_iff_ne, ne_eq] at h
    unfold parseNumber
    rw [if_neg (by
      simp only [List.head?_cons, Option.some.injEq]
      exact h.1.1.2)]
    rw [if_neg (by
      simp only [isExpByte, List.head?_cons, Bool.or_eq_true, beq_iff_eq, Option.some.injEq]
      rintro (hc | hc)
      · exact h.1.2 hc
      · exact h.2 hc)]

theorem wrapNegI64_of_range (sig : Nat) (h1 : 1 ≤ sig) (h2 : sig ≤ 2 ^ 63) :
    wrapNegI64 sig = -(sig : Int) := by
  unfold wrapNegI64
  have hm : sig % 2 ^ 64 = sig := Nat.mod_eq_of_lt (by omega)
  rw [hm]
  have hv : (2 ^ 64 - sig) % 2 ^ 64 = 2 ^ 64 - sig := Nat.mod_eq_of_lt (by omega)
  rw [hv]
  rw [if_neg (by omega)]
  push_cast
  omega

theorem natToDigits_digits (n : Nat) : ∀ d ∈ natToDigits n, isDigitByte d = true := by
  induction n using Nat.strong_induction_on with
  | _ n ih =>
    rw [natToDigits_unfold]
    by_cases h : n < 10
    · rw [if_pos h]
      intro d hd
      simp only [List.mem_singleton] at hd
      subst hd
      simp only [isDigitByte, Bool.and_eq_true, decide_eq_true_eq]
      omega
    · rw [if_neg h]
      intro d hd
      rcases List.mem_append.mp hd with h1 | h1
      · exact ih (n / 10) (by omega) d h1
      · simp only [List.mem_singleton] at h1
        subst h1
        have : n % 10 < 10 := Nat.mod_lt _ (by omega)
        simp only [isDigitByte, Bool.and_eq_true, decide_eq_true_eq]
        omega

theorem natToDigits_foldl (n : Nat) : ∀ a : Nat,
    List.foldl (fun r d => r * 10 + (d - 48)) a (natToDigits n) =
      a * 10 ^ (natToDigits n).length + n := by
  induction n using Nat.strong_induction_on with
  | _ n ih =>
    intro a
    rw [natToDigits_unfold]
    by_cases h : n < 10
    · rw [if_pos h]
      simp only [List.foldl_cons, List.foldl_nil, List.length_singleton, pow_one]
      omega
    · rw [if_neg h]
      rw [List.foldl_append, ih (n / 10) (by omega) a]
      simp only [List.foldl_cons, List.foldl_nil, List.length_append, List.length_singleton]
      have hmod : n % 10 < 10 := Nat.mod_lt _ (by omega)
      have hpow : 10 ^ ((natToDigits (n / 10)).length + 1) =
          10 ^ (natToDigits (n / 10)).length * 10 := pow_succ 10 _
      rw [hpow]
      have hdm : n / 10 * 10 + n % 10 = n := by omega
      ring_nf
      omega

theorem natToDigits_head (n : Nat) (h : 1 ≤ n) :
    ∃ d ds, natToDigits n = d :: ds ∧ 49 ≤ d ∧ d ≤ 57 := by
  induction n using Nat.strong_induction_on with
  | _ n ih =>
    rw [natToDigits_unfold]
    by_cases h10 : n < 10
    · rw [if_pos h10]
      exact ⟨48 + n, [], rfl, by omega, by omega⟩
    · rw [if_neg h10]
      obtain ⟨d, ds, heq, h1, h2⟩ := ih (n / 10) (by omega) (by omega)
      exact ⟨d, ds ++ [48 + n % 10], by rw [heq]; rfl, h1, h2⟩

/-- Head-byte dispatch of `event` once the whitespace skip is settled. -/
theorem event_head (validate : Bool) (b : Nat) (t : List Nat) (h : isWsByte b = false) :
    event validate (b :: t) =
      if b = 34 then (parseStrLoop validate (t.length + 1) [] t).map (fun p => (.str p.1, p.2))
      else if isDigitByte b then parseInteger true b t
      else if b = 45 then parseInteger false (headOr0 t) t.tail
      else if b = 123 then .ok (.mapStart, t)
      else if b = 91 then .ok (.seqStart, t)
      else if b = 110 then (parseIdent [117, 108, 108] t).map (fun r => (.null, r))
      else if b = 116 then (parseIdent [114, 117, 101] t).map (fun r => (.bool true, r))
      else if b = 102 then (parseIdent [97, 108, 115, 101] t).map (fun r => (.bool false, r))
      else .error () := by
  unfold event
  rw [skipWs_not_ws b t h]

theorem event_null_lit (z : List Nat) : event false (nullBytes ++ z) = .ok (.null, z) := rfl

theorem event_true_lit (z : List Nat) : event false (trueBytes ++ z) = .ok (.bool true, z) := rfl

theorem event_false_lit (z : List Nat) :
    event false (falseBytes ++ z) = .ok (.bool false, z) := rfl

theorem event_lbracket (z : List Nat) : event false (91 :: z) = .ok (.seqStart, z) := rfl

theorem event_lbrace (z : List Nat) : event false (123 :: z) = .ok (.mapStart, z) := rfl

theorem event_u64 (n : Nat) (rest : List Nat) (hn : n ≤ u64Max)
    (hrest : numTermByte rest = true) :
    event false (natToDigits n ++ rest) = .ok (.nonnegative n, rest) := by
  by_cases h0 : n = 0
  · subst h0
    show event false (48 :: rest) = _
    rw [event_head false 48 rest (by decide)]
    rw [if_neg (by decide), if_pos (by decide)]
    unfold parseInteger
    rw [if_pos rfl]
    rw [if_neg (by
      cases rest with
      | nil => decide
      | cons b t =>
        simp only [numTermByte, Bool.and_eq_true, Bool.not_eq_true'] at hrest
        simp only [headOr0, List.head?_cons, Option.getD_some]
        rw [hrest.1.1.1]
        exact Bool.false_ne_true)]
    rw [parseNumber_term true 0 rest hrest]
    rfl
  · obtain ⟨d, ds, heq, h49, h57⟩ := natToDigits_head n (by omega)
    have hds : ∀ x ∈ ds, isDigitByte x = true := by
      intro x hx
      exact natToDigits_digits n x (by rw [heq]; simp [hx])
    have hfold : List.foldl (fun r d => r * 10 + (d - 48)) (d - 48) ds = n := by
      have h := natToDigits_foldl n 0
      rw [heq] at h
      simpa using h
    rw [heq, List.cons_append]
    rw [event_head false d (ds ++ rest) (by
      simp only [isWsByte, Bool.or_eq_false_iff, beq_eq_false_iff_ne, ne_eq]
      omega)]
    rw [if_neg (by omega), if_pos (by
      simp only [isDigitByte, Bool.and_eq_true, decide_eq_true_eq]
      omega)]
    unfold parseInteger
    rw [if_neg (by omega), if_pos (by
      simp only [Bool.and_eq_true, decide_eq_true_eq]
      omega)]
    rw [parseIntLoop_digits ds true (d - 48) rest hds hrest (by rw [hfold]; exact hn)]
    rw [hfold, parseNumber_term true n rest hrest]
    rfl

theorem event_i64 (n : Int) (rest : List Nat) (hlo : -(2 ^ 63) ≤ n) (hhi : n < 0)
    (hrest : numTermByte rest = true) :
    event false (intToDigits n ++ rest) = .ok (.negative n, rest) := by
  have hmag1 : 1 ≤ n.natAbs := by omega
  have hmag2 : n.natAbs ≤ 2 ^ 63 := by omega
  have hmagU : n.natAbs ≤ u64Max := by
    simp only [u64Max]
    omega
  rw [show intToDigits n = 45 :: natToDigits n.natAbs from by
    unfold intToDigits
    rw [if_pos hhi]]
  obtain ⟨d, ds, heq, h49, h57⟩ := natToDigits_head n.natAbs hmag1
  have hds : ∀ x ∈ ds, isDigitByte x = true := by
    intro x hx
    exact natToDigits_digits n.natAbs x (by rw [heq]; simp [hx])
  have hfold : List.foldl (fun r d => r * 10 + (d - 48)) (d - 48) ds = n.natAbs := by
    have h := natToDigits_foldl n.natAbs 0
    rw [heq] at h
    simpa using h
  rw [List.cons_append, event_head false 45 (natToDigits n.natAbs ++ rest) (by decide)]
  rw [if_neg (by decide), if_neg (by decide), if_pos rfl]
  rw [heq, List.cons_append]
  simp only [headOr0, List.head?_cons, Option.getD_some, List.tail_cons]
  unfold parseInteger
  rw [if_neg (by omega), if_pos (by
    simp only [Bool.and_eq_true, decide_eq_true_eq]
    omega)]
  rw [parseIntLoop_digits ds false (d - 48) rest hds hrest (by rw [hfold]; exact hmagU)]
  rw [hfold, parseNumber_term false n.natAbs rest hrest]
  rw [wrapNegI64_of_range n.natAbs hmag1 hmag2]
  rw [if_neg (by decide), if_neg (by omega)]
  have : -((n.natAbs : Nat) : Int) = n := by omega
  rw [this]

/-! ### Lexer inversion: strings -/

/-- A byte `escape_str` does not pass through unchanged. -/
def isSpecial (b : Nat) : Bool := b < 32 || b == 34 || b == 92

theorem isSpecial_false_spec {b : Nat} (h : isSpecial b = false) :
    escapeByteSpec b = [b] := by
  simp only [isSpecial, Bool.or_eq_false_iff, beq_eq_false_iff_ne, ne_eq,
    decide_eq_false_iff_not, not_lt] at h
  unfold escapeByteSpec
  split_ifs <;> first | rfl | omega

theorem isSpecial_false_scan {b : Nat} (h : isSpecial b = false) :
    (b == 92 || b == 34) = false := by
  simp only [isSpecial, Bool.or_eq_false_iff, beq_eq_false_iff_ne, ne_eq,
    decide_eq_false_iff_not, not_lt] at h
  simp only [Bool.or_eq_false_iff, beq_eq_false_iff_ne, ne_eq]
  omega

theorem scalar_none : ∀ l : List Nat, (∀ b ∈ l, isSpecial b = false) →
    findSpecialCharScalar l = l.length
  | [], _ => scalar_nil
  | b :: t, h => by
    rw [scalar_cons, isSpecial_false_scan (h b (by simp)), if_neg (by simp)]
    rw [scalar_none t (fun x hx => h x (by simp [hx]))]
    rfl

theorem split_first_special : ∀ s : List Nat,
    (∀ b ∈ s, isSpecial b = false) ∨
      ∃ plain b s₂, s = plain ++ b :: s₂ ∧ (∀ c ∈ plain, isSpecial c = false) ∧
        isSpecial b = true
  | [] => Or.inl (by simp)
  | c :: s' => by
    cases hc : isSpecial c with
    | true => exact Or.inr ⟨[], c, s', rfl, by simp, hc⟩
    | false =>
      rcases split_first_special s' with h | ⟨plain, b, s₂, heq, hplain, hb⟩
      · refine Or.inl ?_
        intro x hx
        rcases List.mem_cons.mp hx with h1 | h1
        · rw [h1]; exact hc
        · exact h x h1
      · refine Or.inr ⟨c :: plain, b, s₂, by rw [heq]; rfl, ?_, hb⟩
        intro x hx
        rcases List.mem_cons.mp hx with h1 | h1
        · rw [h1]; exact hc
        · exact hplain x h1

theorem flatMap_plain : ∀ plain : List Nat, (∀ c ∈ plain, isSpecial c = false) →
    plain.flatMap escapeByteSpec = plain
  | [], _ => rfl
  | c :: t, h => by
    rw [List.flatMap_cons, isSpecial_false_spec (h c (by simp)),
      flatMap_plain t (fun x hx => h x (by simp [hx]))]
    rfl

theorem escape_len_ge : ∀ b : Nat, 1 ≤ (escapeByteSpec b).length := by
  intro b
  unfold escapeByteSpec
  split_ifs <;> simp

theorem flatMap_len_ge : ∀ s : List Nat, s.length ≤ (s.flatMap escapeByteSpec).length
  | [] => le_refl _
  | b :: t => by
    rw [List.flatMap_cons, List.length_append, List.length_cons]
    have h1 := escape_len_ge b
    have h2 := flatMap_len_ge t
    omega

/-- Every special byte prints as a backslash escape that `parse_escape`
decodes back to exactly that byte. -/
theorem escape_roundtrip (b : Nat) (hs : isSpecial b = true) :
    ∃ es, escapeByteSpec b = 92 :: es ∧
      ∀ (buf t : List Nat), parseEscape buf (es ++ t) = .ok (buf ++ [b], t) := by
  have hb : b < 32 ∨ b = 34 ∨ b = 92 := by
    simp only [isSpecial, Bool.or_eq_true, decide_eq_true_eq, beq_iff_eq] at hs
    tauto
  rcases hb with hb | hb | hb
  · interval_cases b <;> exact ⟨_, rfl, fun buf t => rfl⟩
  · subst hb
    exact ⟨[34], rfl, fun buf t => rfl⟩
  · subst hb
    exact ⟨[92], rfl, fun buf t => rfl⟩

/-- One pass of the `parse_str` loop once the scanner offset is known to
point at the byte `b` (validation off). -/
theorem parseStrLoop_step (fuel : Nat) (buf pre : List Nat) (b : Nat) (t : List Nat)
    (hoff : findSpecialCharScalar (pre ++ b :: t) = pre.length) :
    parseStrLoop false (fuel + 1) buf (pre ++ b :: t) =
      if b = 34 then .ok (buf ++ pre, t)
      else if b = 92 then
        match parseEscape (buf ++ pre) t with
        | .ok pr => parseStrLoop false fuel pr.1 pr.2
        | .error () => .error ()
      else .error () := by
  simp only [parseStrLoop, hoff]
  rw [if_neg (by
    simp only [List.length_append, List.length_cons]
    omega)]
  rw [List.drop_left, List.take_left]
  by_cases h34 : b = 34
  · subst h34
    rw [if_pos rfl]
    cases buf with
    | nil => rfl
    | cons x xs => rfl
  · by_cases h92 : b = 92
    · subst h92
      rw [if_neg (by decide), if_pos rfl]
      rfl
    · rw [if_neg h34, if_neg h92]
      simp only [Bool.false_eq_true, if_false, Bool.false_and]
      rw [if_neg h34, if_neg h92]

/-- The `parse_str` loop inverts the per-byte escape expansion: scanning a
printed string body up to the closing quote recovers the source bytes. -/
theorem strLoop_ok : ∀ (fuel : Nat) (s buf rest : List Nat), s.length + 1 ≤ fuel →
    parseStrLoop false fuel buf (s.flatMap escapeByteSpec ++ 34 :: rest) =
      .ok (buf ++ s, rest)
  | 0, s, _, _, hf => by omega
  | fuel + 1, s, buf, rest, hf => by
    rcases split_first_special s with hall | ⟨plain, b, s₂, heq, hplain, hb⟩
    · rw [flatMap_plain s hall]
      have hoff : findSpecialCharScalar (s ++ 34 :: rest) = s.length := by
        rw [scalar_append, scalar_none s hall, if_pos rfl, scalar_cons]
        simp
      rw [parseStrLoop_step fuel buf s 34 rest hoff, if_pos rfl]
    · obtain ⟨es, hes, hdec⟩ := escape_roundtrip b hb
      subst heq
      have hflat : (plain ++ b :: s₂).flatMap escapeByteSpec ++ 34 :: rest =
          plain ++ 92 :: (es ++ (s₂.flatMap escapeByteSpec ++ 34 :: rest)) := by
        rw [List.flatMap_append, List.flatMap_cons, hes, flatMap_plain plain hplain]
        simp [List.append_assoc]
      rw [hflat]
      have hoff : findSpecialCharScalar
          (plain ++ 92 :: (es ++ (s₂.flatMap escapeByteSpec ++ 34 :: rest))) = plain.length := by
        rw [scalar_append, scalar_none plain hplain, if_pos rfl, scalar_cons]
        simp
      rw [parseStrLoop_step fuel buf plain 92 _ hoff]
      rw [if_neg (by decide), if_pos rfl]
      rw [hdec (buf ++ plain) (s₂.flatMap escapeByteSpec ++ 34 :: rest)]
      show parseStrLoop false fuel (buf ++ plain ++ [b])
        (s₂.flatMap escapeByteSpec ++ 34 :: rest) = _
      have hlen : s₂.length + 1 ≤ fuel := by
        simp only [List.length_append, List.length_cons] at hf
        omega
      rw [strLoop_ok fuel s₂ (buf ++ plain ++ [b]) rest hlen]
      simp

/-- The string event inverts `escape_str` (UTF-8 validation off, as in
`from_str`). -/
theorem event_str (s rest : List Nat) :
    event false (escapeStr s ++ rest) = .ok (.str s, rest) := by
  rw [escapeStr_flatMap]
  rw [show (34 :: (s.flatMap escapeByteSpec ++ [34])) ++ rest =
    34 :: (s.flatMap escapeByteSpec ++ 34 :: rest) from by simp]
  rw [event_head false 34 _ (by decide), if_pos rfl]
  have hfuel : s.length + 1 ≤ (s.flatMap escapeByteSpec ++ 34 :: rest).length + 1 := by
    have := flatMap_len_ge s
    simp only [List.length_append, List.length_cons]
    omega
  rw [strLoop_ok _ s [] rest hfuel]
  rfl

/-! ### Driver single-step reductions -/

/-- The value a scalar lexer event delivers to the visitor. -/
def scalarValue : EventV → Option Value
  | .null => some .null
  | .bool b => some (.bool b)
  | .str s => some (.string s)
  | .negative n => some (.number (.i64 n))
  | .nonnegative n => some (.number (.u64 n))
  | .float x => some (.number (.f64 x))
  | .seqStart => none
  | .mapStart => none

theorem drive_value_step {validate : Bool} {f : Nat} {rem rem1 : List Nat}
    {out : Option Value} {stack : List LayerV} {ev : EventV} {v : Value}
    (h : event validate rem = .ok (ev, rem1)) (hev : scalarValue ev = some v) :
    drive validate (f + 1) .pvalue rem out stack = deliver validate f rem1 out stack v := by
  unfold drive
  rw [h]
  cases ev with
  | seqStart => simp [scalarValue] at hev
  | mapStart => simp [scalarValue] at hev
  | null =>
    simp only [scalarValue, Option.some.injEq] at hev
    subst hev
    cases stack <;> rfl
  | bool b =>
    simp only [scalarValue, Option.some.injEq] at hev
    subst hev
    cases stack <;> rfl
  | str s =>
    simp only [scalarValue, Option.some.injEq] at hev
    subst hev
    cases stack <;> rfl
  | negative n =>
    simp only [scalarValue, Option.some.injEq] at hev
    subst hev
    cases stack <;> rfl
  | nonnegative n =>
    simp only [scalarValue, Option.some.injEq] at hev
    subst hev
    cases stack <;> rfl
  | float x =>
    simp only [scalarValue, Option.some.injEq] at hev
    subst hev
    cases stack <;> rfl

theorem drive_seqStart_step {validate : Bool} {f : Nat} {rem rem1 : List Nat}
    {out : Option Value} {stack : List LayerV}
    (h : event validate rem = .ok (.seqStart, rem1)) :
    drive validate (f + 1) .pvalue rem out stack =
      drive validate f (.pdelim (.seq [] none) false) rem1 out stack := by
  simp only [drive]
  rw [h]

theorem drive_mapStart_step {validate : Bool} {f : Nat} {rem rem1 : List Nat}
    {out : Option Value} {stack : List LayerV}
    (h : event validate rem = .ok (.mapStart, rem1)) :
    drive validate (f + 1) .pvalue rem out stack =
      drive validate f (.pdelim (.map [] none none) false) rem1 out stack := by
  simp only [drive]
  rw [h]

theorem drive_pdelim_comma {validate : Bool} {f : Nat} {l : LayerV} {t : List Nat}
    {out : Option Value} {stack : List LayerV} :
    drive validate (f + 1) (.pdelim l true) (44 :: t) out stack =
      drive validate f (.pelem l) t out stack := by
  simp only [drive]
  rw [skipWs_not_ws 44 t (by decide)]
  rfl

theorem drive_pdelim_close_seq {validate : Bool} {f : Nat} {arr : List Value}
    {elem : Option Value} {acc : Bool} {t : List Nat} {out : Option Value}
    {stack : List LayerV} :
    drive validate (f + 1) (.pdelim (.seq arr elem) acc) (93 :: t) out stack =
      deliver validate f t out stack (.array (seqShift arr elem)) := by
  unfold drive
  rw [skipWs_not_ws 93 t (by decide)]
  cases acc <;> cases stack <;> rfl

theorem drive_pdelim_close_map {validate : Bool} {f : Nat}
    {obj : List (List Nat × Value)} {k : Option (List Nat)} {v : Option Value}
    {acc : Bool} {t : List Nat} {out : Option Value} {stack : List LayerV} :
    drive validate (f + 1) (.pdelim (.map obj k v) acc) (125 :: t) out stack =
      deliver validate f t out stack (.object (mapShift obj k v)) := by
  unfold drive
  rw [skipWs_not_ws 125 t (by decide)]
  cases acc <;> cases stack <;> rfl

theorem drive_pdelim_skip {validate : Bool} {f : Nat} {l : LayerV} {b : Nat}
    {t : List Nat} {out : Option Value} {stack : List LayerV}
    (hws : isWsByte b = false) (h93 : b ≠ 93) (h125 : b ≠ 125) :
    drive validate (f + 1) (.pdelim l false) (b :: t) out stack =
      drive validate f (.pelem l) (b :: t) out stack := by
  simp only [drive]
  rw [skipWs_not_ws b t hws]
  simp only [Bool.and_false, Bool.false_eq_true, if_false]
  rw [if_neg h93, if_neg h125]

theorem drive_pelem_seq {validate : Bool} {f : Nat} {arr : List Value}
    {elem : Option Value} {rem : List Nat} {out : Option Value} {stack : List LayerV} :
    drive validate (f + 1) (.pelem (.seq arr elem)) rem out stack =
      drive validate f .pvalue rem out (.seq (seqShift arr elem) none :: stack) := rfl

theorem drive_pelem_map_step {validate : Bool} {f : Nat}
    {obj : List (List Nat × Value)} {key : Option (List Nat)} {val : Option Value}
    {t : List Nat} {out : Option Value} {stack : List LayerV} {k : List Nat}
    {t2 : List Nat}
    (hev : event validate (34 :: t) = .ok (.str k, 58 :: t2)) :
    drive validate (f + 1) (.pelem (.map obj key val)) (34 :: t) out stack =
      drive validate f .pvalue t2 out (.map (mapShift obj key val) (some k) none :: stack) := by
  simp only [drive]
  rw [skipWs_not_ws 34 t (by decide)]
  simp only [eq_self_iff_true, if_true]
  rw [hev]
  simp only []
  rw [skipWs_not_ws 58 t2 (by decide)]

/-! ### Lexicographic key order and sorted insertion -/

theorem lexLt_irrefl : ∀ a : List Nat, lexLt a a = false
  | [] => rfl
  | x :: s => by
    simp only [lexLt, lt_irrefl, if_false]
    exact lexLt_irrefl s

theorem lexLt_trans : ∀ a b c : List Nat, lexLt a b = true → lexLt b c = true →
    lexLt a c = true
  | [], _ :: _, [], _, h2 => by cases h2
  | [], _, _ :: _, _, _ => rfl
  | [], [], c, h1, _ => by cases h1
  | _ :: _, [], _, h1, _ => by cases h1
  | _ :: _, _ :: _, [], _, h2 => by cases h2
  | x :: s, y :: t, z :: u, h1, h2 => by
    simp only [lexLt] at h1 h2 ⊢
    have H1 : x < y ∨ (x = y ∧ lexLt s t = true) := by
      by_cases h : x < y
      · exact Or.inl h
      · rw [if_neg h] at h1
        by_cases h' : y < x
        · rw [if_pos h'] at h1
          cases h1
        · rw [if_neg h'] at h1
          exact Or.inr ⟨by omega, h1⟩
    have H2 : y < z ∨ (y = z ∧ lexLt t u = true) := by
      by_cases h : y < z
      · exact Or.inl h
      · rw [if_neg h] at h2
        by_cases h' : z < y
        · rw [if_pos h'] at h2
          cases h2
        · rw [if_neg h'] at h2
          exact Or.inr ⟨by omega, h2⟩
    by_cases hxz : x < z
    · rw [if_pos hxz]
    · rcases H1 with h | ⟨he, hst⟩ <;> rcases H2 with h' | ⟨he', htu⟩
      · omega
      · omega
      · omega
      · rw [if_neg hxz, if_neg (by omega)]
        subst he'
        exact lexLt_trans s t u hst htu

theorem lexLt_ne {a b : List Nat} (h : lexLt a b = true) : a ≠ b := by
  intro he
  subst he
  rw [lexLt_irrefl] at h
  cases h

theorem objInsert_append : ∀ (obj : List (List Nat × Value)) (k : List Nat) (v : Value),
    (∀ q ∈ obj, lexLt q.1 k = true) → objInsert k v obj = obj ++ [(k, v)]
  | [], _, _, _ => rfl
  | (k2, v2) :: t, k, v, h => by
    have hk2 : lexLt k2 k = true := h (k2, v2) (by simp)
    unfold objInsert
    rw [if_neg ?hlt, if_neg ?hne]
    · rw [objInsert_append t k v (fun q hq => h q (by simp [hq]))]
      rfl
    case hlt =>
      intro hcontra
      have := lexLt_trans k2 k k2 hk2 hcontra
      rw [lexLt_irrefl] at this
      cases this
    case hne =>
      intro hcontra
      subst hcontra
      rw [lexLt_irrefl] at hk2
      cases hk2

/-! ### Print-shape facts feeding the driver induction -/

theorem natToDigits_head48 (n : Nat) :
    ∃ d ds, natToDigits n = d :: ds ∧ 48 ≤ d ∧ d ≤ 57 := by
  by_cases h : n = 0
  · subst h
    exact ⟨48, [], rfl, le_refl _, by omega⟩
  · obtain ⟨d, ds, h1, h2, h3⟩ := natToDigits_head n (by omega)
    exact ⟨d, ds, h1, by omega, h3⟩

/-- Every good value prints to a nonempty text whose first byte is not
whitespace, a comma, or a closing bracket. -/
theorem printValue_starts : ∀ V : Value, goodV V = true →
    ∃ b t', printValue V = b :: t' ∧ isWsByte b = false ∧ b ≠ 93 ∧ b ≠ 125
  | .null, _ => ⟨110, _, rfl, by decide, by decide, by decide⟩
  | .bool true, _ => ⟨116, _, rfl, by decide, by decide, by decide⟩
  | .bool false, _ => ⟨102, _, rfl, by decide, by decide, by decide⟩
  | .string s, _ => by
    refine ⟨34, s.flatMap escapeByteSpec ++ [34], ?_, by decide, by decide, by decide⟩
    show escapeStr s = _
    rw [escapeStr_flatMap]
  | .number (.u64 n), _ => by
    obtain ⟨d, ds, h1, h2, h3⟩ := natToDigits_head48 n
    refine ⟨d, ds, h1, ?_, by omega, by omega⟩
    simp only [isWsByte, Bool.or_eq_false_iff, beq_eq_false_iff_ne, ne_eq]
    omega
  | .number (.i64 n), hg => by
    have hneg : n < 0 := by
      simp only [goodV, Bool.and_eq_true, decide_eq_true_eq] at hg
      exact hg.2
    refine ⟨45, natToDigits n.natAbs, ?_, by decide, by decide, by decide⟩
    show intToDigits n = _
    unfold intToDigits
    rw [if_pos hneg]
  | .number (.f64 x), hg => by
    exact absurd hg (by simp [goodV])
  | .array [], _ => ⟨91, [93], rfl, by decide, by decide, by decide⟩
  | .array (x :: xs), _ =>
    ⟨91, (printValue x ++ printSeqTail xs) ++ [93], by simp [printValue], by decide,
      by decide, by decide⟩
  | .object [], _ => ⟨123, [125], rfl, by decide, by decide, by decide⟩
  | .object (p :: ps), _ =>
    ⟨123, (escapeStr p.1 ++ 58 :: printValue p.2 ++ printMapTail ps) ++ [125],
      by simp [printValue], by decide, by decide, by decide⟩

theorem sepOk_seqTail (xs : List Value) (rest : List Nat) :
    sepOk (printSeqTail xs ++ 93 :: rest) = true := by
  cases xs <;> simp [printSeqTail, sepOk]

theorem sepOk_mapTail (ps : List (List Nat × Value)) (rest : List Nat) :
    sepOk (printMapTail ps ++ 125 :: rest) = true := by
  cases ps <;> simp [printMapTail, sepOk]

theorem drive_pdelim_skip2 {validate : Bool} {f : Nat} {l : LayerV} {rem : List Nat}
    {out : Option Value} {stack : List LayerV}
    (h : ∃ b t', rem = b :: t' ∧ isWsByte b = false ∧ b ≠ 93 ∧ b ≠ 125) :
    drive validate (f + 1) (.pdelim l false) rem out stack =
      drive validate f (.pelem l) rem out stack := by
  obtain ⟨b, t', rfl, hws, h93, h125⟩ := h
  exact drive_pdelim_skip hws h93 h125

/-! ### The driver inverts the printer (exact fuel accounting) -/

mutual

theorem drive_print_val : ∀ (V : Value) (f : Nat) (rest : List Nat) (out : Option Value)
    (stack : List LayerV), goodV V = true → sepOk rest = true →
    drive false (costV V + f) .pvalue (printValue V ++ rest) out stack =
      deliver false f rest out stack V
  | .null, f, rest, out, stack, _, _ => by
    rw [show printValue Value.null = nullBytes from by simp [printValue]]
    rw [show costV Value.null + f = f + 1 from by simp only [costV]; omega]
    exact drive_value_step (event_null_lit rest) rfl
  | .bool true, f, rest, out, stack, _, _ => by
    rw [show printValue (Value.bool true) = trueBytes from by simp [printValue]]
    rw [show costV (Value.bool true) + f = f + 1 from by simp only [costV]; omega]
    exact drive_value_step (event_true_lit rest) rfl
  | .bool false, f, rest, out, stack, _, _ => by
    rw [show printValue (Value.bool false) = falseBytes from by simp [printValue]]
    rw [show costV (Value.bool false) + f = f + 1 from by simp only [costV]; omega]
    exact drive_value_step (event_false_lit rest) rfl
  | .string s, f, rest, out, stack, _, _ => by
    rw [show printValue (Value.string s) = escapeStr s from by simp [printValue]]
    rw [show costV (Value.string s) + f = f + 1 from by simp only [costV]; omega]
    exact drive_value_step (event_str s rest) rfl
  | .number (.u64 n), f, rest, out, stack, hg, hsep => by
    simp only [goodV, decide_eq_true_eq] at hg
    rw [show printValue (.number (.u64 n)) = natToDigits n from by simp [printValue]]
    rw [show costV (Value.number (.u64 n)) + f = f + 1 from by simp only [costV]; omega]
    exact drive_value_step (event_u64 n rest hg (sepOk_numTerm hsep)) rfl
  | .number (.i64 n), f, rest, out, stack, hg, hsep => by
    simp only [goodV, Bool.and_eq_true, decide_eq_true_eq] at hg
    rw [show printValue (.number (.i64 n)) = intToDigits n from by simp [printValue]]
    rw [show costV (Value.number (.i64 n)) + f = f + 1 from by simp only [costV]; omega]
    exact drive_value_step (event_i64 n rest hg.1 hg.2 (sepOk_numTerm hsep)) rfl
  | .number (.f64 x), _, _, _, _, hg, _ => absurd hg (by simp [goodV])
  | .array [], f, rest, out, stack, _, _ => by
    rw [show printValue (Value.array []) = [91, 93] from by simp [printValue]]
    rw [show ([91, 93] : List Nat) ++ rest = 91 :: 93 :: rest from rfl]
    rw [show costV (Value.array []) + f = (f + 1) + 1 from by simp only [costV, costL]; omega]
    rw [drive_seqStart_step (event_lbracket (93 :: rest))]
    rw [drive_pdelim_close_seq]
    rw [show seqShift ([] : List Value) none = [] from by simp [seqShift]]
  | .array (x :: xs), f, rest, out, stack, hg, hsep => by
    simp only [goodV, goodL, Bool.and_eq_true] at hg
    obtain ⟨hx, hxs⟩ := hg
    have hrem : printValue (.array (x :: xs)) ++ rest =
        91 :: (printValue x ++ (printSeqTail xs ++ 93 :: rest)) := by
      simp [printValue, List.append_assoc]
    rw [hrem]
    rw [show costV (Value.array (x :: xs)) + f =
        (((costV x + (costL xs + 1 + f)) + 1) + 1) + 1 from by
      simp only [costV, costL]; omega]
    rw [drive_seqStart_step (event_lbracket (printValue x ++ (printSeqTail xs ++ 93 :: rest)))]
    obtain ⟨b, t', hbt, hws, h93, h125⟩ := printValue_starts x hx
    rw [drive_pdelim_skip2 ⟨b, t' ++ (printSeqTail xs ++ 93 :: rest),
      by rw [hbt]; rfl, hws, h93, h125⟩]
    rw [drive_pelem_seq]
    rw [show seqShift ([] : List Value) none = [] from by simp [seqShift]]
    rw [drive_print_val x (costL xs + 1 + f) (printSeqTail xs ++ 93 :: rest) out
      (.seq [] none :: stack) hx (sepOk_seqTail xs rest)]
    simp only [deliver, writeSlot]
    rw [drive_print_seq xs [] x f rest out stack hxs hsep]
    simp [deliver, writeSlot]
  | .object [], f, rest, out, stack, _, _ => by
    rw [show printValue (Value.object []) = [123, 125] from by simp [printValue]]
    rw [show ([123, 125] : List Nat) ++ rest = 123 :: 125 :: rest from rfl]
    rw [show costV (Value.object []) + f = (f + 1) + 1 from by simp only [costV, costP]; omega]
    rw [drive_mapStart_step (event_lbrace (125 :: rest))]
    rw [drive_pdelim_close_map]
    rw [show mapShift ([] : List (List Nat × Value)) none none = [] from by simp [mapShift]]
  | .object ((kp, vp) :: ps), f, rest, out, stack, hg, hsep => by
    simp only [goodV, goodP, Bool.and_eq_true] at hg
    obtain ⟨⟨⟨⟨hwf, hutf⟩, hgv⟩, hmatch⟩, hgp⟩ := hg
    have hrem : printValue (.object ((kp, vp) :: ps)) ++ rest =
        123 :: (escapeStr kp ++ (58 :: (printValue vp ++ (printMapTail ps ++ 125 :: rest)))) := by
      simp [printValue, List.append_assoc]
    rw [hrem]
    rw [show costV (Value.object ((kp, vp) :: ps)) + f =
        (((costV vp + (costP ps + 1 + f)) + 1) + 1) + 1 from by
      simp only [costV, costP]; omega]
    rw [drive_mapStart_step (event_lbrace
      (escapeStr kp ++ (58 :: (printValue vp ++ (printMapTail ps ++ 125 :: rest)))))]
    have hremq : escapeStr kp ++ (58 :: (printValue vp ++ (printMapTail ps ++ 125 :: rest))) =
        34 :: (kp.flatMap escapeByteSpec ++
          (34 :: (58 :: (printValue vp ++ (printMapTail ps ++ 125 :: rest))))) := by
      rw [escapeStr_flatMap]
      simp [List.append_assoc]
    rw [hremq]
    rw [drive_pdelim_skip2 ⟨34, _, rfl, by decide, by decide, by decide⟩]
    rw [drive_pelem_map_step (show event false (34 :: (kp.flatMap escapeByteSpec ++
        (34 :: (58 :: (printValue vp ++ (printMapTail ps ++ 125 :: rest)))))) =
        .ok (.str kp, 58 :: (printValue vp ++ (printMapTail ps ++ 125 :: rest))) from by
      rw [← hremq]
      exact event_str kp _)]
    rw [show mapShift ([] : List (List Nat × Value)) none none = [] from by simp [mapShift]]
    rw [drive_print_val vp (costP ps + 1 + f) (printMapTail ps ++ 125 :: rest) out
      (.map [] (some kp) none :: stack) hgv (sepOk_mapTail ps rest)]
    simp only [deliver, writeSlot]
    have hinv2 : ∀ q ∈ ps.head?, lexLt kp q.1 = true := by
      cases ps with
      | nil =>
        intro q hq
        simp at hq
      | cons q2 t2 =>
        intro q hq
        simp only [List.head?_cons, Option.mem_def, Option.some.injEq] at hq
        subst hq
        simpa using hmatch
    rw [drive_print_map ps [] kp vp f rest out stack hgp hsep
      (by intro q hq; simp at hq) hinv2]
    simp [deliver, writeSlot]

theorem drive_print_seq : ∀ (xs : List Value) (arr : List Value) (pend : Value) (f : Nat)
    (rest : List Nat) (out : Option Value) (stack : List LayerV),
    goodL xs = true → sepOk rest = true →
    drive false (costL xs + 1 + f) (.pdelim (.seq arr (some pend)) true)
        (printSeqTail xs ++ 93 :: rest) out stack =
      deliver false f rest out stack (.array (arr ++ pend :: xs))
  | [], arr, pend, f, rest, out, stack, _, _ => by
    rw [show printSeqTail ([] : List Value) ++ 93 :: rest = 93 :: rest from by
      simp [printSeqTail]]
    rw [show costL ([] : List Value) + 1 + f = f + 1 from by simp only [costL]; omega]
    rw [drive_pdelim_close_seq]
    rw [show seqShift arr (some pend) = arr ++ [pend] from by simp [seqShift]]
  | y :: ys, arr, pend, f, rest, out, stack, hg, hsep => by
    simp only [goodL, Bool.and_eq_true] at hg
    obtain ⟨hy, hys⟩ := hg
    have hrem : printSeqTail (y :: ys) ++ 93 :: rest =
        44 :: (printValue y ++ (printSeqTail ys ++ 93 :: rest)) := by
      simp [printSeqTail, List.append_assoc]
    rw [hrem]
    rw [show costL (y :: ys) + 1 + f = ((costV y + (costL ys + 1 + f)) + 1) + 1 from by
      simp only [costL]; omega]
    rw [drive_pdelim_comma]
    rw [drive_pelem_seq]
    rw [show seqShift arr (some pend) = arr ++ [pend] from by simp [seqShift]]
    rw [drive_print_val y (costL ys + 1 + f) (printSeqTail ys ++ 93 :: rest) out
      (.seq (arr ++ [pend]) none :: stack) hy (sepOk_seqTail ys rest)]
    simp only [deliver, writeSlot]
    rw [drive_print_seq ys (arr ++ [pend]) y f rest out stack hys hsep]
    simp [deliver, writeSlot]

theorem drive_print_map : ∀ (ps : List (List Nat × Value))
    (obj : List (List Nat × Value)) (k : List Nat) (pend : Value) (f : Nat)
    (rest : List Nat) (out : Option Value) (stack : List LayerV),
    goodP ps = true → sepOk rest = true →
    (∀ q ∈ obj, lexLt q.1 k = true) →
    (∀ q ∈ ps.head?, lexLt k q.1 = true) →
    drive false (costP ps + 1 + f) (.pdelim (.map obj (some k) (some pend)) true)
        (printMapTail ps ++ 125 :: rest) out stack =
      deliver false f rest out stack (.object (obj ++ (k, pend) :: ps))
  | [], obj, k, pend, f, rest, out, stack, _, _, hobj, _ => by
    rw [show printMapTail ([] : List (List Nat × Value)) ++ 125 :: rest = 125 :: rest from by
      simp [printMapTail]]
    rw [show costP ([] : List (List Nat × Value)) + 1 + f = f + 1 from by
      simp only [costP]; omega]
    rw [drive_pdelim_close_map]
    rw [show mapShift obj (some k) (some pend) = obj ++ [(k, pend)] from by
      simp only [mapShift]
      exact objInsert_append obj k pend hobj]
  | (kq, vq) :: qs, obj, k, pend, f, rest, out, stack, hg, hsep, hobj, hhead => by
    simp only [goodP, Bool.and_eq_true] at hg
    obtain ⟨⟨⟨⟨hwf, hutf⟩, hgv⟩, hmatch⟩, hgp⟩ := hg
    have hkkq : lexLt k kq = true := by
      have := hhead (kq, vq) (by simp)
      simpa using this
    have hrem : printMapTail ((kq, vq) :: qs) ++ 125 :: rest =
        44 :: (escapeStr kq ++ (58 :: (printValue vq ++ (printMapTail qs ++ 125 :: rest)))) := by
      simp [printMapTail, List.append_assoc]
    rw [hrem]
    rw [show costP ((kq, vq) :: qs) + 1 + f = ((costV vq + (costP qs + 1 + f)) + 1) + 1 from by
      simp only [costP]; omega]
    rw [drive_pdelim_comma]
    have hremq : escapeStr kq ++ (58 :: (printValue vq ++ (printMapTail qs ++ 125 :: rest))) =
        34 :: (kq.flatMap escapeByteSpec ++
          (34 :: (58 :: (printValue vq ++ (printMapTail qs ++ 125 :: rest))))) := by
      rw [escapeStr_flatMap]
      simp [List.append_assoc]
    rw [hremq]
    rw [drive_pelem_map_step (show event false (34 :: (kq.flatMap escapeByteSpec ++
        (34 :: (58 :: (printValue vq ++ (printMapTail qs ++ 125 :: rest)))))) =
        .ok (.str kq, 58 :: (printValue vq ++ (printMapTail qs ++ 125 :: rest))) from by
      rw [← hremq]
      exact event_str kq _)]
    rw [show mapShift obj (some k) (some pend) = obj ++ [(k, pend)] from by
      simp only [mapShift]
      exact objInsert_append obj k pend hobj]
    rw [drive_print_val vq (costP qs + 1 + f) (printMapTail qs ++ 125 :: rest) out
      (.map (obj ++ [(k, pend)]) (some kq) none :: stack) hgv (sepOk_mapTail qs rest)]
    simp only [deliver, writeSlot]
    have hinv1 : ∀ q ∈ obj ++ [(k, pend)], lexLt q.1 kq = true := by
      intro q hq
      rcases List.mem_append.mp hq with h1 | h1
      · exact lexLt_trans q.1 k kq (hobj q h1) hkkq
      · simp only [List.mem_singleton] at h1
        subst h1
        exact hkkq
    have hinv2 : ∀ q ∈ qs.head?, lexLt kq q.1 = true := by
      cases qs with
      | nil =>
        intro q hq
        simp at hq
      | cons q2 t2 =>
        intro q hq
        simp only [List.head?_cons, Option.mem_def, Option.some.injEq] at hq
        subst hq
        simpa using hmatch
    rw [drive_print_map qs (obj ++ [(k, pend)]) kq vq f rest out stack hgp hsep hinv1 hinv2]
    simp [deliver, writeSlot]

end

/-! ### Fuel bound and assembly -/

mutual

theorem costV_le_print : ∀ V : Value, goodV V = true →
    costV V ≤ 3 * (printValue V).length
  | .null, _ => by simp [costV, printValue, nullBytes]
  | .bool b, _ => by cases b <;> simp [costV, printValue, trueBytes, falseBytes]
  | .string s, _ => by
    simp only [costV, printValue]
    rw [escapeStr_flatMap]
    simp only [List.length_cons, List.length_append, List.length_singleton]
    omega
  | .number (.u64 n), _ => by
    obtain ⟨d, ds, h1, _, _⟩ := natToDigits_head48 n
    simp only [costV, printValue, h1, List.length_cons]
    omega
  | .number (.i64 n), hg => by
    have hneg : n < 0 := by
      simp only [goodV, Bool.and_eq_true, decide_eq_true_eq] at hg
      exact hg.2
    simp only [costV, printValue, intToDigits]
    rw [if_pos hneg]
    simp only [List.length_cons]
    omega
  | .number (.f64 x), hg => absurd hg (by simp [goodV])
  | .array [], _ => by simp [costV, costL, printValue]
  | .array (x :: xs), hg => by
    simp only [goodV, goodL, Bool.and_eq_true] at hg
    have h1 := costV_le_print x hg.1
    have h2 := costL_le_print xs hg.2
    simp only [costV, costL, printValue, List.length_cons, List.length_append,
      List.length_singleton]
    omega
  | .object [], _ => by simp [costV, costP, printValue]
  | .object ((kp, vp) :: ps), hg => by
    simp only [goodV, goodP, Bool.and_eq_true] at hg
    have h1 := costV_le_print vp hg.1.1.2
    have h2 := costP_le_print ps hg.2
    simp only [costV, costP, printValue, List.length_cons, List.length_append,
      List.length_singleton]
    omega

theorem costL_le_print : ∀ l : List Value, goodL l = true →
    costL l ≤ 3 * (printSeqTail l).length
  | [], _ => by simp [costL, printSeqTail]
  | y :: ys, hg => by
    simp only [goodL, Bool.and_eq_true] at hg
    have h1 := costV_le_print y hg.1
    have h2 := costL_le_print ys hg.2
    simp only [costL, printSeqTail, List.length_cons, List.length_append]
    omega

theorem costP_le_print : ∀ l : List (List Nat × Value), goodP l = true →
    costP l ≤ 3 * (printMapTail l).length
  | [], _ => by simp [costP, printMapTail]
  | (kq, vq) :: qs, hg => by
    simp only [goodP, Bool.and_eq_true] at hg
    have h1 := costV_le_print vq hg.1.1.2
    have h2 := costP_le_print qs hg.2
    simp only [costP, printMapTail, List.length_cons, List.length_append]
    omega

end

/-- The complete parse of a printed good value through `from_slice_impl`'s
driver recovers the value. -/
theorem roundtrip_print (V : Value) (h : goodV V = true) :
    fromStrValue (printValue V) = .ok V := by
  unfold fromStrValue fromSliceImpl
  have hcost := costV_le_print V h
  obtain ⟨g, hg⟩ : ∃ g, 3 * (printValue V).length + 8 = costV V + g :=
    ⟨3 * (printValue V).length + 8 - costV V, by omega⟩
  rw [hg]
  have hmain := drive_print_val V g [] none [] h rfl
  rw [List.append_nil] at hmain
  rw [hmain]
  rfl

set_option maxRecDepth 20000 in
/-- C1 counterexample: the print-after-parse direction fails on canonical
well-formed texts without insignificant whitespace.  Three witnesses: the
string `"\/"` (the solidus escape re-prints unescaped), the object
`{"b":0,"a":0}` (keys re-print in sorted order), and the number `1e-298`
(the float lexer is one ulp off the correctly rounded value, so ryu
re-prints `1.0000000000000001e-298`). -/
theorem roundtrip_canonical_cex :
    (fromStrValue [34, 92, 47, 34]).map toStringValue ≠ .ok [34, 92, 47, 34] ∧
    (fromStrValue [123, 34, 98, 34, 58, 48, 44, 34, 97, 34, 58, 48, 125]).map
        toStringValue ≠ .ok [123, 34, 98, 34, 58, 48, 44, 34, 97, 34, 58, 48, 125] ∧
    (fromStrValue [49, 101, 45, 50, 57, 56]).map toStringValue ≠
      .ok [49, 101, 45, 50, 57, 56] := by
  refine ⟨by decide, by decide, ?_⟩
  decide

/-- C1 amended: the round-trip holds in the parse-after-print direction on
the canonical value class: for every Value whose numbers are in-range
integer fragments, whose strings are valid UTF-8, and whose object keys are
strictly increasing, `from_str::<Value>(to_string(V))` returns exactly
`V`. -/
theorem roundtrip_amended :
    ∀ V : Value, goodV V = true → fromStrValue (toStringValue V) = .ok V := by
  intro V h
  rw [toString_print V]
  exact roundtrip_print V h

/-- Closed witness for C1's amended round-trip at a concrete nested value. -/
theorem roundtrip_amended_witness :
    goodV (Value.object [([97], .number (.u64 1)),
      ([98], .array [.null, .bool true, .string [47], .number (.i64 (-5))])]) = true ∧
    fromStrValue (toStringValue (Value.object [([97], .number (.u64 1)),
        ([98], .array [.null, .bool true, .string [47], .number (.i64 (-5))])])) =
      .ok (Value.object [([97], .number (.u64 1)),
        ([98], .array [.null, .bool true, .string [47], .number (.i64 (-5))])]) :=
  ⟨by decide, roundtrip_amended _ (by decide)⟩

end Miniserde
